import Mathlib

/-!
The app-image-converter: layer extraction and tree serialisation.

A shallow embedding of `src/main.go`: `untar`, `extractImageToWorkDir`,
`createTarball`, and the part of `main` that chains them.

Modelling conventions.

* The filesystem is a tree of directories and regular files rooted at `/`.
  `untar` creates nothing else, so no other kind of object occurs.
* A location is the list of names leading from `/` to the object.  The
  operating system and `filepath.Join`/`filepath.Clean` both treat `.`, `..`
  and empty segments lexically when no symbolic link is involved; `walkSegs`
  is that treatment.  Names are Unicode strings; their order by code point is
  the byte-wise order of their UTF-8 encodings, which is what Go compares.
* The process may override permission checks: permission bits are recorded
  (cut by the umask, with the set-user-ID, set-group-ID and sticky bits that
  `os.FileMode` carries, and the set-group-ID bit a new directory inherits),
  not enforced.  The I/O failures are the ones determined by the shape of the
  tree (`ENOENT`, `ENOTDIR`, `EISDIR`), by the limits on path strings
  (`ENAMETOOLONG` beyond `NAME_MAX` or `PATH_MAX`, `EINVAL` on a NUL) where
  `untar` and the layer loop name objects, and by the archive stream.
* Wall-clock time is an input: `World.clock` gives the reading used to stamp
  the objects touched while the k-th archive member is applied.  Creating an
  object in a directory stamps the directory as well.
* `archive/tar` and `encoding/json` are libraries: the tar stream decoder and
  the JSON text decoder are parameters (`Codec`); the written archive is the
  list of headers with their payloads.  Owner and group of the written headers
  are those of the process and are left out.
* `golangErrorHandling` panics on a non-nil error and a failed type assertion
  or index panics too; a panic ends the process, and `Outcome.aborted` carries
  the world it leaves behind.
-/

namespace AppImageConverter

/-! ## Constants of `main.go` -/

/-- Directory where the Docker image manifest will be extracted. -/
def WorkDir : String := "work"

/-- Directory where the Docker image layers will be extracted. -/
def ExtractionDir : String := "extraction"

/-! ## Names and paths -/

abbrev Bytes := List Nat

abbrev Path := List String

/-- Lexicographic "less than" on lists, from a "less than" on elements. -/
def lexLt {α : Type} (lt : α → α → Bool) : List α → List α → Bool
  | [], [] => false
  | [], _ :: _ => true
  | _ :: _, [] => false
  | a :: as, b :: bs =>
    if lt a b then true else if lt b a then false else lexLt lt as bs

/-- Order of characters by code point (this is also the order of their UTF-8
encodings, which is what Go compares). -/
def charLt (x y : Char) : Bool := decide (x.toNat < y.toNat)

/-- Go's `<` on strings: lexical, byte-wise. -/
def nameLt (a b : String) : Bool := lexLt charLt a.data b.data

/-- Order on paths as lists of names: name by name, each name compared with
`nameLt`. -/
def pathLt (p q : Path) : Bool := lexLt nameLt p q

/-- Cut a character list at every `/`. -/
def splitSlash : List Char → List (List Char)
  | [] => [[]]
  | c :: cs =>
    if c = '/' then [] :: splitSlash cs
    else
      match splitSlash cs with
      | [] => [[c]]
      | w :: ws => (c :: w) :: ws

/-- The `/`-separated segments of a path string, empty segments included. -/
def segments (s : String) : List String := (splitSlash s.data).map String.mk

/-- One segment of a path followed from `base`: empty and `.` stay, `..` goes
to the parent (the parent of `/` is `/`), a name goes down. -/
def stepSeg (base : Path) (seg : String) : Path :=
  if seg = "" ∨ seg = "." then base
  else if seg = ".." then base.dropLast
  else base ++ [seg]

/-- Follow segments from `base`. -/
def walkSegs (base : Path) (segs : List String) : Path := segs.foldl stepSeg base

/-- Whether a path string is rooted. -/
def isAbs (s : String) : Bool := s.data.head? = some '/'

/-- The location a path string denotes for a process whose working directory
is `cwd`. -/
def resolve (cwd : Path) (p : String) : Path :=
  if isAbs p then walkSegs [] (segments p) else walkSegs cwd (segments p)

/-- The location `filepath.Join(dst, name)` denotes, `dst` being the location
the string `dst` denotes: `Join` puts a separator between the two and cleans,
so a leading `/` of `name` is absorbed and `..` climbs out of `dst`. -/
def joinPath (dst : Path) (name : String) : Path := walkSegs dst (segments name)

/-- The string `filepath.Walk` hands to its callback for the object at
relative location `p` below a root given as `.`: `Join(".", n) = n` and
`Join(path, n) = path/n`. -/
def pathName : Path → String
  | [] => "."
  | n :: p => "/".intercalate (n :: p)

/-- Longest name the filesystem takes, in bytes. -/
def NAME_MAX : Nat := 255

/-- Size of the buffer the kernel copies a path string into, the final NUL
included: a path string has at most `PATH_MAX - 1` bytes. -/
def PATH_MAX : Nat := 4096

/-- Length of a string in bytes (UTF-8). -/
def byteLen (s : String) : Nat := (s.data.map Char.utf8Size).sum

/-- A name a path string may hold: at most `NAME_MAX` bytes, no NUL. -/
def usableName (n : String) : Bool :=
  decide (byteLen n ≤ NAME_MAX) && !(n.data.contains (Char.ofNat 0))

/-- How many leading names of `p` a system call accepts when `room` bytes are
left for them, each name counted with one separator: the names before the
first one that is not usable or does not fit. -/
def fitCount (room : Nat) : Path → Nat
  | [] => 0
  | n :: p =>
    if usableName n ∧ byteLen n + 1 ≤ room then fitCount (room - (byteLen n + 1)) p + 1
    else 0

/-- `filepath.Clean` of a relative path given by its segments: the number of
leading `..` it keeps and the names after them. -/
def cleanRel (segs : List String) : Nat × Path :=
  segs.foldl
    (fun (a : Nat × Path) s =>
      if s = "" ∨ s = "." then a
      else if s = ".." then (if a.2 = [] then (a.1 + 1, []) else (a.1, a.2.dropLast))
      else (a.1, a.2 ++ [s]))
    (0, [])

/-! ## The filesystem tree -/

/-- A filesystem object: a regular file or a directory with its children in
the order the storage enumerates them. -/
inductive Node where
  | file (mode : Nat) (mtime : Nat) (content : Bytes)
  | dir (mode : Nat) (mtime : Nat) (children : List (String × Node))

/-- The child called `n`, if any. -/
def getChild (n : String) : List (String × Node) → Option Node
  | [] => none
  | (k, c) :: rest => if k = n then some c else getChild n rest

/-- Replace the child called `n`. -/
def setChild (n : String) (c : Node) : List (String × Node) → List (String × Node)
  | [] => []
  | (k, old) :: rest =>
    if k = n then (k, c) :: rest else (k, old) :: setChild n c rest

/-- The object at location `p` below `t` (`os.Stat`/`os.Lstat`). -/
def Node.get? : Node → Path → Option Node
  | t, [] => some t
  | .file _ _ _, _ :: _ => none
  | .dir _ _ cs, n :: p =>
    match getChild n cs with
    | some c => c.get? p
    | none => none

/-- What an object is apart from its timestamp: a file with its permission
bits and content, or a directory with its permission bits. -/
inductive Shape where
  | file (mode : Nat) (content : Bytes)
  | dir (mode : Nat)
  deriving DecidableEq, Repr

def Node.shape : Node → Shape
  | .file m _ c => .file m c
  | .dir m _ _ => .dir m

/-- Shape of the object at `p`, if there is one. -/
def shapeAt (t : Node) (p : Path) : Option Shape := (t.get? p).map Node.shape

def Node.isDir : Node → Bool
  | .dir _ _ _ => true
  | .file _ _ _ => false

/-- The conversion `os.FileMode(header.Mode)` of an `int64` to the 32-bit mode. -/
def fileMode (m : Int) : Nat := (m % 4294967296).toNat

/-- The mode bits `os` hands to the kernel for a `FileMode`: the permission
bits and, for `ModeSetuid` (bit 23), `ModeSetgid` (bit 22) and `ModeSticky`
(bit 20), the bits 04000, 02000 and 01000. -/
def syscallMode (fm : Nat) : Nat :=
  fm % 512 + (if fm / 8388608 % 2 = 1 then 0o4000 else 0)
    + (if fm / 4194304 % 2 = 1 then 0o2000 else 0)
    + (if fm / 1048576 % 2 = 1 then 0o1000 else 0)

/-- The mode of an object created with the `FileMode` `fm` under `umask`. -/
def creationMode (umask fm : Nat) : Nat := syscallMode fm &&& (0o7777 ^^^ (umask % 512))

/-- A chain of new directories `p` below a new directory. -/
def freshDirs (now perm : Nat) : Path → Node
  | [] => .dir perm now []
  | n :: p => .dir perm now [(n, freshDirs now perm p)]

/-- `os.MkdirAll` on a path whose string the system calls accept: every
missing directory on the way is made (a new directory takes the set-group-ID
bit of the directory it is made in), an existing directory is left alone, a
file on the way is an error (`none`). -/
def mkdirPath (now perm : Nat) : Node → Path → Option Node
  | .file _ _ _, _ => none
  | .dir m t cs, [] => some (.dir m t cs)
  | .dir m t cs, n :: p =>
    match getChild n cs with
    | some c => (mkdirPath now perm c p).map (fun c1 => .dir m t (setChild n c1 cs))
    | none => some (.dir m now (cs ++ [(n, freshDirs now (perm ||| (m &&& 0o2000)) p)]))

/-- `os.MkdirAll(p, perm)` when the system calls accept the first `ok` names
of `p`: the directories are made as far as that, and the call fails when `p`
goes further (what was made stays) or a file is on the way.  The tree after
it and whether it returns an error. -/
def mkdirAll (now perm ok : Nat) (t : Node) (p : Path) : Node × Bool :=
  match mkdirPath now perm t (p.take ok) with
  | none => (t, true)
  | some u => (u, decide (ok < p.length))

/-- `os.OpenFile(p, O_CREATE|O_RDWR, perm)` on a path whose string the system
calls accept: an existing file is opened as it is (no truncation), a missing
file is created empty in an existing directory; a directory at `p`, a missing
parent, or a file on the way is an error. -/
def openPath (now perm : Nat) : Node → Path → Option Node
  | .file m t c, [] => some (.file m t c)
  | .dir _ _ _, [] => none
  | .file _ _ _, _ :: _ => none
  | .dir m t cs, n :: p =>
    match getChild n cs with
    | some c => (openPath now perm c p).map (fun c1 => .dir m t (setChild n c1 cs))
    | none =>
      match p with
      | [] => some (.dir m now (cs ++ [(n, .file perm now [])]))
      | _ :: _ => none

/-- `os.OpenFile(p, O_CREATE|O_RDWR, perm)` when the system calls accept the
first `ok` names of `p`: an error when `p` goes further. -/
def openFile (now perm ok : Nat) (t : Node) (p : Path) : Option Node :=
  if p.length ≤ ok then openPath now perm t p else none

/-- `io.Copy(f, tr)` on the file just opened at `p`: the bytes are written
from offset 0 over what the file holds. -/
def writeAt (now : Nat) (data : Bytes) : Node → Path → Node
  | .file m t old, [] =>
    if data = [] then .file m t old else .file m now (data ++ old.drop data.length)
  | .dir m t cs, [] => .dir m t cs
  | .file m t old, _ :: _ => .file m t old
  | .dir m t cs, n :: p =>
    match getChild n cs with
    | some c => .dir m t (setChild n (writeAt now data c p) cs)
    | none => .dir m t cs

/-! ## Tar archives as read -/

/-- The type flags `untar` can meet. -/
inductive Typeflag where
  | TypeReg
  | TypeDir
  | TypeSymlink
  | TypeLink
  | other
  deriving DecidableEq, Repr

/-- The header fields the program reads. -/
structure Header where
  Name : String
  Typeflag : Typeflag
  Mode : Int
  Linkname : String
  deriving DecidableEq, Repr

/-- One archive member: its header, the payload the reader delivers, and
whether reading the payload ends in an error. -/
structure TarItem where
  header : Header
  content : Bytes
  short : Bool
  deriving DecidableEq, Repr

/-- A tar stream: its members, and whether `tr.Next()` after the last one
returns an error other than `io.EOF`. -/
structure Archive where
  items : List TarItem
  bad : Bool
  deriving DecidableEq, Repr

/-! ## The world -/

/-- The filesystem, the working directory and the umask of the process, and
the clock. -/
structure World where
  root : Node
  cwd : Path
  umask : Nat
  clock : Nat → Nat
  ticks : Nat

def World.now (w : World) : Nat := w.clock w.ticks

def World.tick (w : World) : World := { w with ticks := w.ticks + 1 }

/-! ## `untar` -/

/-- One turn of the loop of `untar` after `tr.Next()` has returned a header,
`target` being the location of `filepath.Join(dst, header.Name)` and `ok` the
number of its leading names the system calls accept: the world after it and
whether `untar` returns an error here. -/
def applyAt (target : Path) (ok : Nat) (w : World) (it : TarItem) : World × Bool :=
  match it.header.Typeflag with
  | .TypeDir =>
    if target.length ≤ ok ∧ (w.root.get? target).isSome then (w.tick, false)
    else
      match mkdirAll w.now (creationMode w.umask 0o755) ok w.root target with
      | (r, e) => ({ w with root := r }.tick, e)
  | .TypeReg =>
    match openFile w.now (creationMode w.umask (fileMode it.header.Mode)) ok w.root target with
    | none => (w.tick, true)
    | some r =>
      ({ w with root := writeAt w.now it.content r target }.tick, it.short)
  | _ => (w.tick, false)

/-- One turn of the loop of `untar(dst, r)` for `dst` an absolute path: the
target string is absolute, one separator before each name. -/
def applyItem (dst : Path) (w : World) (it : TarItem) : World × Bool :=
  applyAt (joinPath dst it.header.Name)
    (fitCount (PATH_MAX - 1) (joinPath dst it.header.Name)) w it

/-- One turn of the loop of `untar(".", r)`: the target string is relative to
the working directory, with the `..` that `filepath.Clean` keeps in front. -/
def applyItemHere (w : World) (it : TarItem) : World × Bool :=
  let c := cleanRel (segments it.header.Name)
  if 3 * c.1 ≤ PATH_MAX then
    applyAt (walkSegs w.cwd (segments it.header.Name))
      ((w.cwd.length - c.1) + fitCount (PATH_MAX - 3 * c.1) c.2) w it
  else
    match it.header.Typeflag with
    | .TypeDir => (w.tick, true)
    | .TypeReg => (w.tick, true)
    | _ => (w.tick, false)

/-- The loop of `untar`: members in stream order, stop at the first error. -/
def untarLoop (dst : Path) : World → List TarItem → Bool → World × Bool
  | w, [], bad => (w, bad)
  | w, it :: rest, bad =>
    match applyItem dst w it with
    | (w1, true) => (w1, true)
    | (w1, false) => untarLoop dst w1 rest bad

/-- The function `untar(dst, r)` for `dst` an absolute path (the call with
`untar_wd`): the world it leaves and whether it returns an error. -/
def untar (dst : Path) (w : World) (r : Archive) : World × Bool :=
  untarLoop dst w r.items r.bad

/-- The loop of `untar(".", r)`. -/
def untarHereLoop : World → List TarItem → Bool → World × Bool
  | w, [], bad => (w, bad)
  | w, it :: rest, bad =>
    match applyItemHere w it with
    | (w1, true) => (w1, true)
    | (w1, false) => untarHereLoop w1 rest bad

/-- The function `untar(".", r)`: the same loop, the targets named relative to the
working directory. -/
def untarHere (w : World) (r : Archive) : World × Bool :=
  untarHereLoop w r.items r.bad

/-! ## `createTarball` -/

/-- A header written by `createTarball` with the payload that follows it.
`path` is the location relative to the walk root; the `Name` written is
`pathName path`. -/
structure Entry where
  path : Path
  Typeflag : Typeflag
  Mode : Nat
  Size : Nat
  ModTime : Nat
  content : Bytes
  deriving DecidableEq, Repr

/-- The field `header.Name`. -/
def Entry.Name (e : Entry) : String := pathName e.path

/-- What `tar.FileInfoHeader` and the copy of the content give for one object. -/
def entryOf (p : Path) : Node → Entry
  | .file m t c => ⟨p, .TypeReg, m, c.length, t, c⟩
  | .dir m t _ => ⟨p, .TypeDir, m, 0, t, []⟩

/-- The names of a directory as `filepath.Walk` reads them: sorted. -/
def readDirNames (cs : List (String × Node)) : List String :=
  (cs.map Prod.fst).insertionSort (fun a b => nameLt b a = false)

mutual
/-- The walk of `filepath.Walk` with the callback of `createTarball`: the
object itself, then, for a directory, each name in sorted order, looked up and
walked. -/
def walk (p : Path) : Node → List Entry
  | .file m t c => [entryOf p (.file m t c)]
  | .dir m t cs =>
    entryOf p (.dir m t cs) :: (readDirNames cs).flatMap (fun n => walkChild p n cs)
/-- The walk of the child called `n`. -/
def walkChild (p : Path) (n : String) : List (String × Node) → List Entry
  | [] => []
  | (k, c) :: rest => if k = n then walk (p ++ [n]) c else walkChild p n rest
end

/-- The function `createTarball(".", w)`: the entries written, `none` when the walk root
cannot be examined (the callback then panics). -/
def createTarball (w : World) : Option (List Entry) :=
  (w.root.get? w.cwd).map (walk [])

/-! ## `extractImageToWorkDir` -/

/-- A JSON value. -/
inductive JSON where
  | null
  | bool (b : Bool)
  | num (text : String)
  | str (s : String)
  | arr (xs : List JSON)
  | obj (kvs : List (String × JSON))

/-- The two library decoders. -/
structure Codec where
  tarDecode : Bytes → Archive
  jsonDecode : Bytes → Option JSON

/-- How a run of a function that may panic ends. -/
inductive Outcome where
  | done (w : World)
  | aborted (w : World)

def Outcome.world : Outcome → World
  | .done w => w
  | .aborted w => w

def Outcome.failed : Outcome → Bool
  | .done _ => false
  | .aborted _ => true

/-- `os.Chdir(dir)`. -/
def chdir (w : World) (dir : String) : Option World :=
  match w.root.get? (resolve w.cwd dir) with
  | some (.dir _ _ _) => some { w with cwd := resolve w.cwd dir }
  | _ => none

/-- `os.ReadFile`. -/
def readFile (w : World) (p : Path) : Option Bytes :=
  match w.root.get? p with
  | some (.file _ _ c) => some c
  | _ => none

/-- `os.Open` followed by `tar.NewReader`: `none` when the open fails; a
directory opens but cannot be read. -/
def openArchive (env : Codec) (w : World) (p : Path) : Option Archive :=
  match w.root.get? p with
  | some (.file _ _ c) => some (env.tarDecode c)
  | some (.dir _ _ _) => some ⟨[], true⟩
  | none => none

/-- `os.Open(filepath.Join("..", layer_file))` followed by `tar.NewReader`:
the path string is relative and starts with `..`. -/
def openLayer (env : Codec) (w : World) (layer_file : String) : Option Archive :=
  let c := cleanRel (".." :: segments layer_file)
  if 3 * c.1 ≤ PATH_MAX ∧ fitCount (PATH_MAX - 3 * c.1) c.2 = c.2.length then
    openArchive env w (walkSegs w.cwd (".." :: segments layer_file))
  else none

/-- One element of `[]map[string]interface{}`: an object gives its members, `null` the nil map. -/
def unmarshalElem : JSON → Option (List (String × JSON))
  | .obj kvs => some kvs
  | .null => some []
  | _ => none

/-- `json.Unmarshal` into `[]map[string]interface{}`: `null` gives the nil
slice, a list gives its elements, anything else is an error (`none`). -/
def unmarshalAll : List JSON → Option (List (List (String × JSON)))
  | [] => some []
  | x :: xs =>
    match unmarshalElem x, unmarshalAll xs with
    | some m, some ms => some (m :: ms)
    | _, _ => none

def unmarshal : JSON → Option (List (List (String × JSON)))
  | .null => some []
  | .arr xs => unmarshalAll xs
  | _ => none

/-- Indexing a decoded map: the last member with the key wins. -/
def mapIndex (key : String) : List (String × JSON) → Option JSON
  | [] => none
  | (k, v) :: rest =>
    match mapIndex key rest with
    | some v1 => some v1
    | none => if k = key then some v else none

/-- The `for _, layer := range layers` loop (lines 138-151). -/
def extractLayers (env : Codec) : World → List JSON → Outcome
  | w, [] => .done w
  | w, .str layer_file :: rest =>
    match openLayer env w layer_file with
    | none => .aborted w
    | some r =>
      match untar w.cwd w r with
      | (w1, true) => .aborted w1
      | (w1, false) => extractLayers env w1 rest
  | w, _ :: _ => .aborted w

/-- Lines 124-133 of `extractImageToWorkDir`: read and decode the manifest
and take `result[0]["Layers"]`.  The outer `none` is a panic; the inner
option is the interface value `layers`, `none` when the key is missing. -/
def manifestLayers (env : Codec) (w : World) : Option (Option JSON) :=
  match readFile w (resolve w.cwd "manifest.json") with
  | none => none
  | some manifest_json =>
    match env.jsonDecode manifest_json with
    | none => none
    | some doc =>
      match unmarshal doc with
      | none => none
      | some [] => none
      | some (first :: _) => some (mapIndex "Layers" first)

/-- Lines 124-151 of `extractImageToWorkDir`: read the manifest, take the
layers of the first descriptor, enter the extraction directory, apply them. -/
def extractFromManifest (env : Codec) (w : World) : Outcome :=
  match manifestLayers env w with
  | none => .aborted w
  | some layers =>
    match chdir w ExtractionDir with
    | none => .aborted w
    | some w1 =>
      match layers with
      | some (.arr ls) => extractLayers env w1 ls
      | _ => .aborted w1

/-- The function `extractImageToWorkDir(cli, ctx, work_tar)`. -/
def extractImageToWorkDir (env : Codec) (w : World) (work_tar : String) : Outcome :=
  match openArchive env w (resolve w.cwd work_tar) with
  | none => .aborted w
  | some image =>
    match chdir w WorkDir with
    | none => .aborted w
    | some w1 =>
      match untarHere w1 image with
      | (w2, true) => .aborted w2
      | (w2, false) => extractFromManifest env w2

/-! ## The pipeline -/

/-- The run of `main` from the manifest to the written archive (lines 68-76,
after the image archive is unpacked into the work directory):
`extractImageToWorkDir` reads the manifest and applies the layers, which
leaves the process in the extraction directory, where `main` returns to call
`createTarball(".", ...)`.  `none` is a panic. -/
def materialize (env : Codec) (w : World) : Option (List Entry) :=
  match extractFromManifest env w with
  | .aborted _ => none
  | .done w1 => createTarball w1

/-! ## Well-formedness and order -/

mutual
/-- Well-formed tree: the names of every directory are pairwise distinct. -/
def Node.wf : Node → Bool
  | .file _ _ _ => true
  | .dir _ _ cs => decide ((cs.map Prod.fst).Nodup) && wfList cs
/-- Every child in the list is well formed. -/
def wfList : List (String × Node) → Bool
  | [] => true
  | (_, c) :: rest => c.wf && wfList rest
end

/-- A strict total order given as a Boolean "less than". -/
structure StrictTotal {α : Type} (lt : α → α → Bool) : Prop where
  irrefl : ∀ a, lt a a = false
  trans : ∀ a b c, lt a b = true → lt b c = true → lt a c = true
  conn : ∀ a b, lt a b = false → lt b a = false → a = b

/-! ## Enumeration order -/

/-- `Reordered t u`: `u` is `t` with the children of some directories
enumerated in another order (any directory, any number of times). -/
inductive Reordered : Node → Node → Prop where
  | refl (t : Node) : Reordered t t
  | perm (m t : Nat) (cs ds : List (String × Node)) :
      cs.Perm ds → Reordered (.dir m t cs) (.dir m t ds)
  | inside (m t : Nat) (pre post : List (String × Node)) (n : String) (c d : Node) :
      Reordered c d →
      Reordered (.dir m t (pre ++ (n, c) :: post)) (.dir m t (pre ++ (n, d) :: post))
  | trans (t u v : Node) : Reordered t u → Reordered u v → Reordered t v

/-! ## Layer application as a fold -/

/-- One more layer in a fold over the manifest's list: nothing after a failure,
otherwise open the layer archive and `untar` it into the working directory. -/
def layerStep (env : Codec) (o : Outcome) (layer_file : String) : Outcome :=
  match o with
  | .aborted w => .aborted w
  | .done w =>
    match openLayer env w layer_file with
    | none => .aborted w
    | some r =>
      match untar w.cwd w r with
      | (w1, true) => .aborted w1
      | (w1, false) => .done w1

/-- One more archive member in a fold over the members of a layer: nothing
after an error, otherwise apply it. -/
def itemStep (dst : Path) (a : World × Bool) (it : TarItem) : World × Bool :=
  if a.2 then a else applyItem dst a.1 it

/-! ## The merged tree as a map from locations to shapes -/

def Shape.isFile : Shape → Bool
  | .file _ _ => true
  | .dir _ => false

def Shape.isDir : Shape → Bool
  | .file _ _ => false
  | .dir _ => true

/-- The set-group-ID bit of a directory, 0 for anything else. -/
def sgidBit : Option Shape → Nat
  | some (.dir m) => m &&& 0o2000
  | _ => 0

/-- The set-group-ID bit of the deepest existing object on the way from `base`
down to `base ++ p`. -/
def inheritFrom (σ : Path → Option Shape) (base : Path) : Path → Nat
  | [] => sgidBit (σ base)
  | n :: p =>
    match σ (base ++ [n]) with
    | some _ => inheritFrom σ (base ++ [n]) p
    | none => sgidBit (σ base)

/-- The set-group-ID bit that directories made on the way to `p` inherit. -/
def inheritBit (σ : Path → Option Shape) (p : Path) : Nat := inheritFrom σ [] p

/-- One archive member applied to the map `σ` from locations to shapes, with
the error flag: the effect of one turn of the loop of `untar`, told without
the tree, for a target of which the system calls accept the first `ok` names.
A directory member leaves an existing object alone and otherwise makes the
missing directories on the way as far as the names are accepted, unless a file
is on the way; a regular-file member overwrites an existing file from offset
0, creates a missing file in an existing directory, and fails otherwise; any
other member is skipped. -/
def shapeStep (umask : Nat) (target : Path) (ok : Nat) (it : TarItem)
    (σ : Path → Option Shape) : (Path → Option Shape) × Bool :=
  match it.header.Typeflag with
  | .TypeDir =>
    if target.length ≤ ok ∧ (σ target).isSome then (σ, false)
    else if (target.take ok).inits.any (fun q => (σ q).any Shape.isFile) then (σ, true)
    else
      (fun q =>
        match σ q with
        | some s => some s
        | none =>
          if q <+: target.take ok then
            some (.dir (creationMode umask 0o755 ||| inheritBit σ (target.take ok)))
          else none,
        decide (ok < target.length))
  | .TypeReg =>
    if target.length ≤ ok then
      match σ target with
      | some (.file m old) =>
        (fun q =>
          if q = target then some (.file m (it.content ++ old.drop it.content.length))
          else σ q, it.short)
      | some (.dir _) => (σ, true)
      | none =>
        if target ≠ [] ∧ (σ target.dropLast).any Shape.isDir then
          (fun q =>
            if q = target then
              some (.file (creationMode umask (fileMode it.header.Mode)) it.content)
            else σ q,
            it.short)
        else (σ, true)
    else (σ, true)
  | _ => (σ, false)

/-- The loop of `untar` on the map of shapes. -/
def shapeLoop (umask : Nat) (dst : Path) :
    (Path → Option Shape) → List TarItem → Bool → (Path → Option Shape) × Bool
  | σ, [], bad => (σ, bad)
  | σ, it :: rest, bad =>
    match shapeStep umask (joinPath dst it.header.Name)
        (fitCount (PATH_MAX - 1) (joinPath dst it.header.Name)) it σ with
    | (σ1, true) => (σ1, true)
    | (σ1, false) => shapeLoop umask dst σ1 rest bad

/-- The shape an archive entry stands for. -/
def entryShape (e : Entry) : Shape :=
  match e.Typeflag with
  | .TypeDir => .dir e.Mode
  | _ => .file e.Mode e.content

/-- An entry with its modification time blanked. -/
def Entry.untimed (e : Entry) : Entry := { e with ModTime := 0 }

/-- Two worlds with the same working directory, the same umask and the same
shape at every location: they differ at most in timestamps, clocks and
enumeration order. -/
def SameShapes (w v : World) : Prop :=
  w.cwd = v.cwd ∧ w.umask = v.umask ∧ ∀ q, shapeAt w.root q = shapeAt v.root q

mutual
/-- A check that two trees have the same shape at every location: files with
the same mode and content, directories with the same mode and the same names,
the children under equal names of the same shape; timestamps and the order of
enumeration are not compared. -/
def sameShapeTree : Node → Node → Bool
  | .file m _ c, .file m2 _ c2 => decide (m = m2) && decide (c = c2)
  | .dir m _ cs, .dir m2 _ ds =>
    decide (m = m2) && sameKids cs ds && ds.all (fun p => (getChild p.1 cs).isSome)
  | .file _ _ _, .dir _ _ _ => false
  | .dir _ _ _, .file _ _ _ => false
/-- Every child in the first list has a child of the same shape under its name in `ds`. -/
def sameKids : List (String × Node) → List (String × Node) → Bool
  | [], _ => true
  | (n, c) :: rest, ds =>
    (match getChild n ds with
      | some d => sameShapeTree c d
      | none => false) && sameKids rest ds
end

/-! ## Plain layers -/

/-- The names in a path string: its segments without the empty ones and `.`. -/
def nameComps (name : String) : Path :=
  (segments name).filter (fun s => decide (s ≠ "" ∧ s ≠ "."))

/-- The location of a member below the tree root. -/
def itemPath (it : TarItem) : Path := nameComps it.header.Name

/-- The shape `untar` gives a directory or regular-file member in an empty
place below a root of mode `m0`: a directory gets mode 0755 cut by the umask
and the set-group-ID bit of the root, a file the mode bits of its header cut
by the umask. -/
def itemShape (umask m0 : Nat) (it : TarItem) : Shape :=
  match it.header.Typeflag with
  | .TypeDir => .dir (creationMode umask 0o755 ||| (m0 &&& 0o2000))
  | _ => .file (creationMode umask (fileMode it.header.Mode)) it.content

/-- A member that can be applied below `dst` after the members `seen`: a
directory or a regular file, fully readable, with a name without `..` that is
not the root and not the location of a member seen, whose target string the
system calls accept (names of at most `NAME_MAX` bytes without NUL, fewer than
`PATH_MAX` bytes in all), and whose parent is the root or a directory member
seen. -/
def plainItem (dst : Path) (seen : List TarItem) (it : TarItem) : Bool :=
  decide (".." ∉ segments it.header.Name) && decide (itemPath it ≠ []) && !it.short &&
  (decide (it.header.Typeflag = .TypeDir) || decide (it.header.Typeflag = .TypeReg)) &&
  decide (fitCount (PATH_MAX - 1) (dst ++ itemPath it) = (dst ++ itemPath it).length) &&
  seen.all (fun s => decide (itemPath s ≠ itemPath it)) &&
  (decide ((itemPath it).dropLast = []) ||
    seen.any (fun s => decide (s.header.Typeflag = .TypeDir) &&
      decide (itemPath s = (itemPath it).dropLast)))

/-- Every member is plain after the ones before it. -/
def plainLayerFrom (dst : Path) (seen : List TarItem) : List TarItem → Bool
  | [] => true
  | it :: rest => plainItem dst seen it && plainLayerFrom dst (seen ++ [it]) rest

/-- A layer of directories and regular files for the root `dst`, parents
first, no location twice, that ends with `io.EOF`. -/
def plainLayer (dst : Path) (r : Archive) : Bool := !r.bad && plainLayerFrom dst [] r.items

/-! ## Sample inputs -/

/-- Directory `a` with child `a/b`, next to the file `a.txt`. -/
def treeC7 : Node :=
  .dir 0o755 0 [("a.txt", .file 0o644 0 [1]), ("a", .dir 0o755 0 [("b", .file 0o644 0 [2])])]

/-- A process whose working directory is the root of `treeC7`. -/
def worldC7 : World := ⟨treeC7, [], 0o022, fun _ => 0, 0⟩

/-- The tree `treeC7` with the two children of its root enumerated the other way round. -/
def treeC7Swapped : Node :=
  .dir 0o755 0 [("a", .dir 0o755 0 [("b", .file 0o644 0 [2])]), ("a.txt", .file 0o644 0 [1])]

/-- A process whose working directory is the root of `treeC7Swapped`. -/
def worldC7Swapped : World := ⟨treeC7Swapped, [], 0o022, fun _ => 0, 0⟩

/-- A regular-file member with mode 0644. -/
def regItem (name : String) (content : Bytes) : TarItem :=
  ⟨⟨name, .TypeReg, 0o644, ""⟩, content, false⟩

/-- A directory member. -/
def dirItem (name : String) : TarItem := ⟨⟨name, .TypeDir, 0o755, ""⟩, [], false⟩

/-- A symbolic-link member. -/
def symlinkItem (name target : String) : TarItem :=
  ⟨⟨name, .TypeSymlink, 0o777, target⟩, [], false⟩

/-- Sample layer: directory `a` and file `a/b`. -/
def layerAB : Archive := ⟨[dirItem "a", regItem "a/b" [7]], false⟩

/-- Sample layer: the deletion marker for `a/b`. -/
def layerWhiteoutAB : Archive := ⟨[regItem "a/.wh.b" []], false⟩

/-- Sample layer: `f` with four bytes. -/
def layerOld : Archive := ⟨[regItem "f" [1, 2, 3, 4]], false⟩

/-- Sample layer: `f` with two bytes. -/
def layerNew : Archive := ⟨[regItem "f" [9, 9]], false⟩

/-- Sample layer: directory `dir` with the files `x` and `y`. -/
def layerDirXY : Archive := ⟨[dirItem "dir", regItem "dir/x" [1], regItem "dir/y" [2]], false⟩

/-- Sample layer: the opaque marker of `dir`, then `dir/z`. -/
def layerOpaqueZ : Archive := ⟨[regItem "dir/.wh..wh..opq" [], regItem "dir/z" [3]], false⟩

/-- Sample layer: a member that climbs out of the tree root. -/
def layerEscape : Archive := ⟨[regItem "../escape" [1]], false⟩

/-- Sample layer: a member with an absolute name. -/
def layerAbsolute : Archive := ⟨[regItem "/abs" [1]], false⟩

/-- Sample layer: a directory, a member whose name goes down and up again, and
a member with an absolute name. -/
def layerDotDotInside : Archive :=
  ⟨[dirItem "a", regItem "a/../b" [1], regItem "/abs" [2]], false⟩

/-- Sample layer: directory `dir`, the file `dir/x` with `ModeSetuid` and the
file `dir/y` with `ModeSticky` next to the permission bits 0644. -/
def layerModes : Archive :=
  ⟨[dirItem "dir", ⟨⟨"dir/x", .TypeReg, 8388608 + 0o644, ""⟩, [1], false⟩,
    ⟨⟨"dir/y", .TypeReg, 1048576 + 0o644, ""⟩, [2], false⟩], false⟩

/-- Sample layer: a directory with a symbolic link in it. -/
def layerWithSymlink : Archive := ⟨[dirItem "d", symlinkItem "d/l" "x"], false⟩

/-- Sample layer: a file whose parent directory is not in the archive. -/
def layerOrphan : Archive := ⟨[regItem "p/q" [1]], false⟩

/-- Sample decoders: a one-byte file `[k]` stands for the k-th sample archive
or document. -/
def sampleCodec : Codec where
  tarDecode := fun b =>
    if b = [1] then layerAB
    else if b = [2] then layerWhiteoutAB
    else ⟨[], true⟩
  jsonDecode := fun b =>
    if b = [100] then
      some (.arr [.obj [("Config", .str "c.json"), ("Layers", .arr [.str "l1.tar", .str "l2.tar"])]])
    else if b = [101] then
      some (.arr [.obj [("Layers", .arr [.str "l1.tar", .num "7", .str "l2.tar"])]])
    else if b = [102] then
      some (.arr [.obj [("Layers", .arr [.str "l1.tar"])], .null])
    else if b = [103] then
      some (.arr [.obj [("Config", .str "c.json")]])
    else none

/-- Sample work directory `/work` after the image archive was unpacked: the
manifest, two layer archives and the empty extraction directory. -/
def sampleRoot (manifest : Bytes) : Node :=
  .dir 0o755 0 [("work", .dir 0o755 0 [
    ("manifest.json", .file 0o644 0 manifest),
    ("l1.tar", .file 0o644 0 [1]),
    ("l2.tar", .file 0o644 0 [2]),
    ("extraction", .dir 0o755 0 [])])]

/-- The sample work directory as another unpacking leaves it: the same files
and directories, later modification times, another order of enumeration. -/
def sampleRootLater (manifest : Bytes) : Node :=
  .dir 0o755 3 [("work", .dir 0o755 9 [
    ("extraction", .dir 0o755 8 []),
    ("l2.tar", .file 0o644 7 [2]),
    ("l1.tar", .file 0o644 6 [1]),
    ("manifest.json", .file 0o644 4 manifest)])]

/-- The sample work directory when an earlier run has left the file `stale`
in the extraction directory. -/
def sampleRootLeftover (manifest : Bytes) : Node :=
  .dir 0o755 0 [("work", .dir 0o755 0 [
    ("manifest.json", .file 0o644 0 manifest),
    ("l1.tar", .file 0o644 0 [1]),
    ("l2.tar", .file 0o644 0 [2]),
    ("extraction", .dir 0o755 0 [("stale", .file 0o644 0 [8])])])]

/-- The process in `/work` with the given manifest and clock, umask 022. -/
def sampleWorld (manifest : Bytes) (clock : Nat → Nat) : World :=
  ⟨sampleRoot manifest, ["work"], 0o022, clock, 0⟩

/-- The same process once it has entered the extraction directory. -/
def sampleWorldIn (manifest : Bytes) (clock : Nat → Nat) : World :=
  ⟨sampleRoot manifest, ["work", "extraction"], 0o022, clock, 0⟩

/-- The sample process in its empty extraction directory, clock stuck at 5. -/
def worldE : World := sampleWorldIn [100] (fun _ => 5)

/-- Names, sizes and contents of a written archive. -/
def summary (o : Option (List Entry)) : Option (List (String × Nat × Bytes)) :=
  o.map (fun es => es.map (fun e => (e.Name, e.Size, e.content)))

/-! ## Theorems -/

/-! ### Orders -/

theorem StrictTotal.asymm {α : Type} {lt : α → α → Bool} (h : StrictTotal lt) {a b : α}
    (hab : lt a b = true) : lt b a = false := by
  cases hba : lt b a with
  | false => rfl
  | true => have := h.trans a b a hab hba; rw [h.irrefl] at this; exact (Bool.false_ne_true this).elim

theorem lexLt_irrefl {α : Type} {lt : α → α → Bool} (h : StrictTotal lt) :
    ∀ l : List α, lexLt lt l l = false
  | [] => rfl
  | a :: as => by simp [lexLt, h.irrefl, lexLt_irrefl h as]

theorem lexLt_conn {α : Type} {lt : α → α → Bool} (h : StrictTotal lt) :
    ∀ l m : List α, lexLt lt l m = false → lexLt lt m l = false → l = m
  | [], [] => fun _ _ => rfl
  | [], _ :: _ => fun h1 _ => by simp [lexLt] at h1
  | _ :: _, [] => fun _ h2 => by simp [lexLt] at h2
  | a :: as, b :: bs => fun h1 h2 => by
    cases hab : lt a b with
    | true => simp [lexLt, hab] at h1
    | false =>
      cases hba : lt b a with
      | true => simp [lexLt, hba] at h2
      | false =>
        simp [lexLt, hab, hba] at h1 h2
        rw [h.conn a b hab hba, lexLt_conn h as bs h1 h2]

theorem lexLt_trans {α : Type} {lt : α → α → Bool} (h : StrictTotal lt) :
    ∀ l m k : List α, lexLt lt l m = true → lexLt lt m k = true → lexLt lt l k = true
  | [], [], _ => fun h1 _ => by simp [lexLt] at h1
  | [], _ :: _, [] => fun _ h2 => by simp [lexLt] at h2
  | [], _ :: _, _ :: _ => fun _ _ => rfl
  | _ :: _, [], _ => fun h1 _ => by simp [lexLt] at h1
  | _ :: _, _ :: _, [] => fun _ h2 => by simp [lexLt] at h2
  | a :: as, b :: bs, c :: cs => fun h1 h2 => by
    cases hab : lt a b with
    | true =>
      cases hbc : lt b c with
      | true => simp [lexLt, h.trans a b c hab hbc]
      | false =>
        cases hcb : lt c b with
        | true => simp [lexLt, hbc, hcb] at h2
        | false =>
          have := h.conn b c hbc hcb
          subst this
          simp [lexLt, hab]
    | false =>
      cases hba : lt b a with
      | true => simp [lexLt, hab, hba] at h1
      | false =>
        have := h.conn a b hab hba
        subst this
        simp only [lexLt, hab, Bool.false_eq_true, if_false] at h1
        cases hac : lt a c with
        | true => simp [lexLt, hac]
        | false =>
          cases hca : lt c a with
          | true => simp [lexLt, hac, hca] at h2
          | false =>
            simp only [lexLt, hac, hca, Bool.false_eq_true, if_false] at h2 ⊢
            exact lexLt_trans h as bs cs h1 h2

theorem lexLt_strictTotal {α : Type} {lt : α → α → Bool} (h : StrictTotal lt) :
    StrictTotal (lexLt lt) :=
  ⟨lexLt_irrefl h, lexLt_trans h, lexLt_conn h⟩

theorem charLt_strictTotal : StrictTotal charLt := by
  refine ⟨?_, ?_, ?_⟩
  · intro a; simp [charLt]
  · intro a b c h1 h2; simp [charLt] at *; omega
  · intro a b h1 h2
    simp [charLt] at h1 h2
    exact Char.le_antisymm h2 h1

theorem nameLt_strictTotal : StrictTotal nameLt := by
  have h := lexLt_strictTotal charLt_strictTotal
  refine ⟨fun a => h.irrefl _, fun a b c => h.trans _ _ _, ?_⟩
  intro a b h1 h2
  exact String.ext (h.conn _ _ h1 h2)

theorem pathLt_strictTotal : StrictTotal pathLt := lexLt_strictTotal nameLt_strictTotal

/-! ### The tree and the walk -/

theorem Node.induct {P : Node → Prop} (hf : ∀ m t c, P (.file m t c))
    (hd : ∀ m t cs, (∀ n c, (n, c) ∈ cs → P c) → P (.dir m t cs)) (t : Node) : P t := by
  refine @Node.rec P (fun cs => ∀ n c, (n, c) ∈ cs → P c)
    (fun pr => P pr.2) hf (fun m t cs ih => hd m t cs ih) ?_ ?_ ?_ t
  · intro n c h; cases h
  · intro hd tl h1 h2 n c hm
    rcases List.mem_cons.1 hm with h | h
    · subst h; exact h1
    · exact h2 n c h
  · intro n c h; exact h

theorem walkChild_eq (p : Path) (n : String) (cs : List (String × Node)) :
    walkChild p n cs = match getChild n cs with
      | some c => walk (p ++ [n]) c
      | none => [] := by
  induction cs with
  | nil => simp [walkChild, getChild]
  | cons hd tl ih =>
    obtain ⟨k, c⟩ := hd
    by_cases h : k = n
    · simp [walkChild, getChild, h]
    · simp [walkChild, getChild, h, ih]

theorem getChild_mem {n : String} {c : Node} : ∀ {cs : List (String × Node)},
    getChild n cs = some c → (n, c) ∈ cs
  | [], h => by simp [getChild] at h
  | (k, d) :: rest, h => by
    by_cases hk : k = n
    · simp [getChild, hk] at h; subst h; subst hk; simp
    · simp [getChild, hk] at h; exact List.mem_cons_of_mem _ (getChild_mem h)

theorem getChild_isSome_of_mem {n : String} : ∀ {cs : List (String × Node)},
    n ∈ cs.map Prod.fst → ∃ c, getChild n cs = some c
  | [], h => by simp at h
  | (k, d) :: rest, h => by
    by_cases hk : k = n
    · exact ⟨d, by simp [getChild, hk]⟩
    · have : n ∈ rest.map Prod.fst := by
        simp only [List.map_cons, List.mem_cons] at h
        rcases h with h | h
        · exact absurd h.symm hk
        · exact h
      obtain ⟨c, hc⟩ := getChild_isSome_of_mem this
      exact ⟨c, by simp [getChild, hk, hc]⟩

theorem getChild_name_mem {n : String} {c : Node} {cs : List (String × Node)}
    (h : getChild n cs = some c) : n ∈ cs.map Prod.fst :=
  List.mem_map.2 ⟨(n, c), getChild_mem h, rfl⟩

theorem walk_dir (p : Path) (m t : Nat) (cs : List (String × Node)) :
    walk p (.dir m t cs) = entryOf p (.dir m t cs) ::
      (readDirNames cs).flatMap (fun n =>
        match getChild n cs with
        | some c => walk (p ++ [n]) c
        | none => []) := by
  rw [walk]
  congr 1
  congr 1
  funext n
  exact walkChild_eq p n cs

theorem mem_readDirNames {n : String} {cs : List (String × Node)} :
    n ∈ readDirNames cs ↔ n ∈ cs.map Prod.fst :=
  (List.perm_insertionSort _ _).mem_iff

/-- Every entry of a walk is the entry of an object of the tree. -/
theorem walk_sound (t : Node) : ∀ (p : Path) (e : Entry), e ∈ walk p t →
    ∃ q nd, t.get? q = some nd ∧ e = entryOf (p ++ q) nd := by
  induction t using Node.induct with
  | hf m t c =>
    intro p e he
    simp [walk] at he
    exact ⟨[], .file m t c, by simp [Node.get?], by simpa using he⟩
  | hd m t cs ih =>
    intro p e he
    rw [walk_dir, List.mem_cons] at he
    rcases he with he | he
    · exact ⟨[], .dir m t cs, by simp [Node.get?], by simpa using he⟩
    · obtain ⟨n, _, hn⟩ := List.mem_flatMap.1 he
      cases hc : getChild n cs with
      | none => simp [hc] at hn
      | some c =>
        simp only [hc] at hn
        obtain ⟨q, nd, hq, hnd⟩ := ih n c (getChild_mem hc) _ e hn
        exact ⟨n :: q, nd, by simp [Node.get?, hc, hq], by simpa using hnd⟩

/-- Every object of the tree has its entry in the walk. -/
theorem walk_complete : ∀ (q : Path) (t : Node) (p : Path) (nd : Node),
    t.get? q = some nd → entryOf (p ++ q) nd ∈ walk p t
  | [], t, p, nd, h => by
    simp [Node.get?] at h
    subst h
    cases t with
    | file m t c => simp [walk]
    | dir m t cs => simp [walk_dir]
  | n :: q, .file _ _ _, p, nd, h => by simp [Node.get?] at h
  | n :: q, .dir m t cs, p, nd, h => by
    cases hc : getChild n cs with
    | none => simp [Node.get?, hc] at h
    | some c =>
      simp only [Node.get?, hc] at h
      rw [walk_dir]
      refine List.mem_cons_of_mem _ (List.mem_flatMap.2 ⟨n, ?_, ?_⟩)
      · exact mem_readDirNames.2 (getChild_name_mem hc)
      · simp only [hc]
        have := walk_complete q c (p ++ [n]) nd h
        simpa using this

@[simp] theorem entryOf_path (p : Path) (nd : Node) : (entryOf p nd).path = p := by
  cases nd <;> rfl

theorem pathLt_append_cons : ∀ (p : Path) (n : String) (q : Path),
    pathLt p (p ++ n :: q) = true
  | [], n, q => rfl
  | a :: p, n, q => by
    have := pathLt_append_cons p n q
    simp only [pathLt] at this
    simp [pathLt, lexLt, nameLt_strictTotal.irrefl, this]

theorem pathLt_diverge : ∀ (p : Path) (n n1 : String) (q q1 : Path),
    nameLt n n1 = true → pathLt (p ++ n :: q) (p ++ n1 :: q1) = true
  | [], n, n1, q, q1, h => by simp [pathLt, lexLt, h]
  | a :: p, n, n1, q, q1, h => by
    have := pathLt_diverge p n n1 q q1 h
    simp only [pathLt] at this
    simp [pathLt, lexLt, nameLt_strictTotal.irrefl, this]

theorem wfList_iff : ∀ (cs : List (String × Node)),
    wfList cs = true ↔ ∀ n c, (n, c) ∈ cs → c.wf = true
  | [] => by simp [wfList]
  | (k, d) :: rest => by
    simp only [wfList, Bool.and_eq_true, wfList_iff rest, List.mem_cons, Prod.mk.injEq]
    constructor
    · rintro ⟨h1, h2⟩ n c (⟨rfl, rfl⟩ | h)
      · exact h1
      · exact h2 n c h
    · intro h
      exact ⟨h k d (Or.inl ⟨rfl, rfl⟩), fun n c hm => h n c (Or.inr hm)⟩

theorem wf_dir_iff (m t : Nat) (cs : List (String × Node)) :
    (Node.dir m t cs).wf = true ↔
      (cs.map Prod.fst).Nodup ∧ ∀ n c, (n, c) ∈ cs → c.wf = true := by
  simp [Node.wf, wfList_iff]

theorem readDirNames_sorted (cs : List (String × Node)) :
    (readDirNames cs).Pairwise (fun a b => nameLt b a = false) := by
  have htot : IsTotal String (fun a b => nameLt b a = false) := ⟨fun a b => by
    cases h : nameLt b a with
    | false => exact Or.inl rfl
    | true => exact Or.inr (nameLt_strictTotal.asymm h)⟩
  have htr : IsTrans String (fun a b => nameLt b a = false) := ⟨fun a b c h1 h2 => by
    cases h : nameLt c a with
    | false => rfl
    | true =>
      cases hcb : nameLt c b with
      | true => simp [hcb] at h2
      | false =>
        cases hbc : nameLt b c with
        | true => have := nameLt_strictTotal.trans b c a hbc h; simp [this] at h1
        | false =>
          have := nameLt_strictTotal.conn b c hbc hcb
          subst this; simp [h] at h1⟩
  exact List.sorted_insertionSort _ _

theorem readDirNames_strict {cs : List (String × Node)} (h : (cs.map Prod.fst).Nodup) :
    (readDirNames cs).Pairwise (fun a b => nameLt a b = true) := by
  have hnd : (readDirNames cs).Nodup := (List.perm_insertionSort _ _).nodup_iff.2 h
  have := (readDirNames_sorted cs).and hnd
  refine this.imp ?_
  intro a b hab
  obtain ⟨h1, h2⟩ := hab
  cases hlt : nameLt a b with
  | true => rfl
  | false => exact absurd (nameLt_strictTotal.conn a b hlt h1) h2

/-- On a well-formed tree the walk visits locations in strictly increasing
name-by-name order. -/
theorem walk_sorted (t : Node) : ∀ (p : Path), t.wf = true →
    (walk p t).Pairwise (fun a b => pathLt a.path b.path = true) := by
  induction t using Node.induct with
  | hf m t c => intro p _; simp [walk]
  | hd m t cs ih =>
    intro p hwf
    obtain ⟨hnd, hch⟩ := (wf_dir_iff m t cs).1 hwf
    rw [walk_dir, List.pairwise_cons]
    constructor
    · intro e he
      obtain ⟨n, _, hn⟩ := List.mem_flatMap.1 he
      cases hc : getChild n cs with
      | none => simp [hc] at hn
      | some c =>
        simp only [hc] at hn
        obtain ⟨q, nd, _, hnd⟩ := walk_sound c _ e hn
        subst hnd
        simpa using pathLt_append_cons p n q
    · rw [List.pairwise_flatMap]
      constructor
      · intro n _
        cases hc : getChild n cs with
        | none => simp
        | some c => exact ih n c (getChild_mem hc) _ (hch n c (getChild_mem hc))
      · refine (readDirNames_strict hnd).imp ?_
        intro n n1 hlt x hx y hy
        cases hc : getChild n cs with
        | none => simp [hc] at hx
        | some c =>
          cases hc1 : getChild n1 cs with
          | none => simp [hc1] at hy
          | some c1 =>
            simp only [hc] at hx
            simp only [hc1] at hy
            obtain ⟨q, nd, _, hx⟩ := walk_sound c _ x hx
            obtain ⟨q1, nd1, _, hy⟩ := walk_sound c1 _ y hy
            subst hx; subst hy
            simpa using pathLt_diverge p n n1 q q1 hlt

/-! ### C7: serialisation order -/

theorem filter_path_eq_singleton : ∀ (es : List Entry) (x : Entry),
    es.Pairwise (fun a b => pathLt a.path b.path = true) → x ∈ es →
    es.filter (fun e => decide (e.path = x.path)) = [x]
  | [], x, _, hx => by simp at hx
  | e :: es, x, hp, hx => by
    rw [List.pairwise_cons] at hp
    have hne : ∀ y ∈ es, y.path ≠ e.path := by
      intro y hy heq
      have := hp.1 y hy
      rw [heq, pathLt_strictTotal.irrefl] at this
      exact Bool.false_ne_true this
    rcases List.mem_cons.1 hx with h | h
    · subst h
      have : es.filter (fun e => decide (e.path = x.path)) = [] := by
        rw [List.filter_eq_nil_iff]
        intro y hy
        simpa using hne y hy
      simp [List.filter_cons, this]
    · have hxe : e.path ≠ x.path := fun heq => hne x h heq.symm
      simp [List.filter_cons, hxe, filter_path_eq_singleton es x hp.2 h]

/-- C7 (as stated, refuted): for the tree holding directory `a` with child `a/b` next to
the file `a.txt`, the names written are `.`, `a`, `a/b`, `a.txt`, and `a/b` is
not below `a.txt` in byte-wise string order. -/
theorem c7_names_not_increasing :
    (createTarball worldC7).map (fun es => es.map Entry.Name) = some [".", "a", "a/b", "a.txt"] ∧
    treeC7.wf = true ∧
    nameLt "a/b" "a.txt" = false ∧ nameLt "a.txt" "a/b" = true := by
  decide

/-- C7 (amended): for every well-formed tree, `createTarball` writes its entries in
strictly increasing order of their locations compared name by name (each
directory right before its contents, siblings in byte-wise order of their
names), every object of the tree has exactly one entry, and every entry is
the entry of an object of the tree. -/
theorem c7_createTarball_order (w : World) (t : Node)
    (ht : w.root.get? w.cwd = some t) (hwf : t.wf = true) :
    ∃ es, createTarball w = some es ∧
      es.Pairwise (fun a b => pathLt a.path b.path = true) ∧
      (∀ q nd, t.get? q = some nd →
        es.filter (fun e => decide (e.path = q)) = [entryOf q nd]) ∧
      (∀ e ∈ es, ∃ nd, t.get? e.path = some nd ∧ e = entryOf e.path nd) := by
  refine ⟨walk [] t, by simp [createTarball, ht], walk_sorted t [] hwf, ?_, ?_⟩
  · intro q nd hq
    have hm := walk_complete q t [] nd hq
    have := filter_path_eq_singleton _ _ (walk_sorted t [] hwf) hm
    simpa using this
  · intro e he
    obtain ⟨q, nd, hq, rfl⟩ := walk_sound t [] e he
    exact ⟨nd, by simpa using hq, by simp⟩

/-- Witness for C7: the tree holding directory `a` with child `a/b` next to the file `a.txt`. -/
theorem c7_createTarball_order_witness :
    worldC7.root.get? worldC7.cwd = some treeC7 ∧ treeC7.wf = true ∧
    ∃ es, createTarball worldC7 = some es ∧
      es.Pairwise (fun a b => pathLt a.path b.path = true) ∧
      (∀ q nd, treeC7.get? q = some nd →
        es.filter (fun e => decide (e.path = q)) = [entryOf q nd]) ∧
      (∀ e ∈ es, ∃ nd, treeC7.get? e.path = some nd ∧ e = entryOf e.path nd) :=
  ⟨rfl, by decide, c7_createTarball_order worldC7 treeC7 rfl (by decide)⟩

/-! ### C9: enumeration order -/

theorem getChild_perm {n : String} {cs ds : List (String × Node)} (h : cs.Perm ds) :
    (cs.map Prod.fst).Nodup → getChild n cs = getChild n ds := by
  induction h with
  | nil => intro _; rfl
  | cons x _ ih =>
    intro hnd
    obtain ⟨k, c⟩ := x
    simp only [List.map_cons, List.nodup_cons] at hnd
    by_cases hk : k = n
    · simp [getChild, hk]
    · simp [getChild, hk, ih hnd.2]
  | swap x y l =>
    intro hnd
    obtain ⟨k, c⟩ := x
    obtain ⟨k1, c1⟩ := y
    simp only [List.map_cons, List.nodup_cons, List.mem_cons] at hnd
    have hne : k1 ≠ k := fun h => hnd.1 (Or.inl h)
    by_cases hk : k = n
    · have : k1 ≠ n := by rw [← hk]; exact hne
      simp [getChild, hk, this]
    · by_cases hk1 : k1 = n
      · simp [getChild, hk, hk1]
      · simp [getChild, hk, hk1]
  | trans h1 _ ih1 ih2 =>
    intro hnd
    rw [ih1 hnd, ih2 ((h1.map Prod.fst).nodup_iff.1 hnd)]

theorem readDirNames_perm {cs ds : List (String × Node)}
    (h : (cs.map Prod.fst).Perm (ds.map Prod.fst)) : readDirNames cs = readDirNames ds := by
  have hanti : IsAntisymm String (fun a b => nameLt b a = false) :=
    ⟨fun a b h1 h2 => nameLt_strictTotal.conn a b h2 h1⟩
  refine List.eq_of_perm_of_sorted ?_ (readDirNames_sorted cs) (readDirNames_sorted ds)
  exact ((List.perm_insertionSort _ _).trans h).trans (List.perm_insertionSort _ _).symm

theorem getChild_append (n : String) (pre post : List (String × Node)) :
    getChild n (pre ++ post) = match getChild n pre with
      | some c => some c
      | none => getChild n post := by
  induction pre with
  | nil => simp [getChild]
  | cons x tl ih =>
    obtain ⟨k, c⟩ := x
    by_cases hk : k = n
    · simp [getChild, hk]
    · simp [getChild, hk, ih]

/-- Reordering keeps a well-formed tree well formed and does not change its walk. -/
theorem reordered_walk {t u : Node} (h : Reordered t u) :
    t.wf = true → u.wf = true ∧ ∀ p, walk p t = walk p u := by
  induction h with
  | refl t => intro hwf; exact ⟨hwf, fun _ => rfl⟩
  | perm m t cs ds hp =>
    intro hwf
    obtain ⟨hnd, hch⟩ := (wf_dir_iff m t cs).1 hwf
    refine ⟨(wf_dir_iff m t ds).2 ⟨((hp.map Prod.fst).nodup_iff).1 hnd,
      fun n c hm => hch n c (hp.mem_iff.2 hm)⟩, fun p => ?_⟩
    rw [walk_dir, walk_dir, readDirNames_perm (hp.map Prod.fst)]
    have : ∀ n, getChild n cs = getChild n ds := fun n => getChild_perm hp hnd
    simp [this, entryOf]
  | inside m t pre post n c d _ ih =>
    intro hwf
    obtain ⟨hnd, hch⟩ := (wf_dir_iff m t _).1 hwf
    have hc : c.wf = true := hch n c (by simp)
    obtain ⟨hd, hw⟩ := ih hc
    have hnames : (pre ++ (n, d) :: post).map Prod.fst = (pre ++ (n, c) :: post).map Prod.fst := by
      simp
    refine ⟨(wf_dir_iff m t _).2 ⟨by rw [hnames]; exact hnd, ?_⟩, fun p => ?_⟩
    · intro n1 c1 hm
      simp only [List.mem_append, List.mem_cons, Prod.mk.injEq] at hm
      rcases hm with hm | ⟨rfl, rfl⟩ | hm
      · exact hch n1 c1 (by simp [hm])
      · exact hd
      · exact hch n1 c1 (by simp [hm])
    · rw [walk_dir, walk_dir]
      have hrd : readDirNames (pre ++ (n, d) :: post) = readDirNames (pre ++ (n, c) :: post) := by
        simp [readDirNames]
      rw [hrd]
      congr 1
      congr 1
      funext k
      rw [getChild_append, getChild_append]
      cases getChild k pre with
      | some y => rfl
      | none =>
        by_cases hk : n = k
        · subst hk
          simp [getChild, hw]
        · simp [getChild, hk]
  | trans t u v _ _ ih1 ih2 =>
    intro hwf
    obtain ⟨hu, hw⟩ := ih1 hwf
    obtain ⟨hv, hw1⟩ := ih2 hu
    exact ⟨hv, fun p => (hw p).trans (hw1 p)⟩

/-- C9: for every well-formed tree and every other enumeration order of the children of
its directories, `createTarball` writes the same sequence of entries (names,
order, header fields and content). -/
theorem c9_enumeration_order_irrelevant (w w1 : World) (t u : Node)
    (ht : w.root.get? w.cwd = some t) (hu : w1.root.get? w1.cwd = some u)
    (hwf : t.wf = true) (hr : Reordered t u) :
    createTarball w1 = createTarball w ∧ createTarball w = some (walk [] t) := by
  simp [createTarball, ht, hu, (reordered_walk hr hwf).2 []]

/-- Witness for C9: the tree of C7 and the same tree with the children of its root swapped. -/
theorem c9_enumeration_order_irrelevant_witness :
    worldC7.root.get? worldC7.cwd = some treeC7 ∧
    worldC7Swapped.root.get? worldC7Swapped.cwd = some treeC7Swapped ∧
    treeC7.wf = true ∧ Reordered treeC7 treeC7Swapped ∧
    createTarball worldC7Swapped = createTarball worldC7 ∧
    createTarball worldC7 = some (walk [] treeC7) :=
  ⟨rfl, rfl, by decide, Reordered.perm _ _ _ _ (List.Perm.swap _ _ _),
    c9_enumeration_order_irrelevant worldC7 worldC7Swapped treeC7 treeC7Swapped rfl rfl
      (by decide) (Reordered.perm _ _ _ _ (List.Perm.swap _ _ _))⟩

/-! ### C1: layers in manifest order -/

theorem foldl_layerStep_aborted (env : Codec) (w : World) (ls : List String) :
    ls.foldl (layerStep env) (.aborted w) = .aborted w := by
  induction ls with
  | nil => rfl
  | cons l ls ih => simpa [layerStep] using ih

theorem extractLayers_eq_foldl (env : Codec) : ∀ (ls : List String) (w : World),
    extractLayers env w (ls.map JSON.str) = ls.foldl (layerStep env) (.done w)
  | [], w => rfl
  | l :: ls, w => by
    simp only [List.map_cons, extractLayers, List.foldl_cons, layerStep]
    cases openLayer env w l with
    | none => simp [foldl_layerStep_aborted]
    | some r =>
      simp only []
      rcases hu : untar w.cwd w r with ⟨w1, e⟩
      cases e with
      | true => simp [foldl_layerStep_aborted]
      | false => simpa using extractLayers_eq_foldl env ls w1

theorem foldl_itemStep_failed (dst : Path) (w : World) (items : List TarItem) :
    items.foldl (itemStep dst) (w, true) = (w, true) := by
  induction items with
  | nil => rfl
  | cons it items ih => simpa [itemStep] using ih

theorem untarLoop_eq_foldl (dst : Path) : ∀ (items : List TarItem) (w : World) (bad : Bool),
    untarLoop dst w items bad =
      ((items.foldl (itemStep dst) (w, false)).1, (items.foldl (itemStep dst) (w, false)).2 || bad)
  | [], w, bad => by simp [untarLoop]
  | it :: items, w, bad => by
    simp only [untarLoop, List.foldl_cons, itemStep]
    rcases ha : applyItem dst w it with ⟨w1, e⟩
    cases e with
    | true => simp [foldl_itemStep_failed]
    | false => simpa using untarLoop_eq_foldl dst items w1 bad

theorem chdir_root {w w1 : World} {dir : String} (h : chdir w dir = some w1) :
    w1.root = w.root := by
  unfold chdir at h
  split at h
  · cases h; rfl
  · cases h

/-- C1: when the first descriptor of the manifest has `Layers = [l0, ..., ln-1]`, all
strings, `extractImageToWorkDir` (its lines 124-151) leaves what the left fold
of `untar` over that list leaves, started from the tree as it was: `l0`
first, each layer once, stopping at the first layer that fails; inside a layer
the members are applied in stream order; an empty list leaves the tree as it
was. -/
theorem c1_layers_applied_in_manifest_order (env : Codec) (w w1 : World) (ls : List String)
    (hm : manifestLayers env w = some (some (.arr (ls.map JSON.str))))
    (hc : chdir w ExtractionDir = some w1) :
    extractFromManifest env w = ls.foldl (layerStep env) (.done w1) ∧
    w1.root = w.root ∧
    (ls = [] → extractFromManifest env w = .done w1) ∧
    (∀ (dst : Path) (v : World) (r : Archive),
      untar dst v r = ((r.items.foldl (itemStep dst) (v, false)).1,
        (r.items.foldl (itemStep dst) (v, false)).2 || r.bad)) := by
  have h : extractFromManifest env w = ls.foldl (layerStep env) (.done w1) := by
    simp [extractFromManifest, hm, hc, extractLayers_eq_foldl]
  refine ⟨h, chdir_root hc, ?_, fun dst v r => untarLoop_eq_foldl dst r.items v r.bad⟩
  intro hnil
  rw [h, hnil]
  rfl

/-- Witness for C1: the sample work directory whose manifest lists `l1.tar` and `l2.tar`. -/
theorem c1_layers_applied_in_manifest_order_witness :
    manifestLayers sampleCodec (sampleWorld [100] (fun _ => 5)) =
      some (some (.arr (["l1.tar", "l2.tar"].map JSON.str))) ∧
    chdir (sampleWorld [100] (fun _ => 5)) ExtractionDir = some (sampleWorldIn [100] (fun _ => 5)) ∧
    extractFromManifest sampleCodec (sampleWorld [100] (fun _ => 5)) =
      ["l1.tar", "l2.tar"].foldl (layerStep sampleCodec) (.done (sampleWorldIn [100] (fun _ => 5))) :=
  ⟨rfl, rfl, (c1_layers_applied_in_manifest_order sampleCodec (sampleWorld [100] (fun _ => 5))
    (sampleWorldIn [100] (fun _ => 5)) ["l1.tar", "l2.tar"] rfl rfl).1⟩


/-! ### C10: manifest failures -/

theorem unmarshalAll_cons_eq_some {x : JSON} {xs : List JSON} {ms : List (List (String × JSON))}
    (h : unmarshalAll (x :: xs) = some ms) :
    ∃ m ms1, unmarshalElem x = some m ∧ unmarshalAll xs = some ms1 ∧ ms = m :: ms1 := by
  unfold unmarshalAll at h
  cases hx : unmarshalElem x with
  | none => simp [hx] at h
  | some m =>
    cases hxs : unmarshalAll xs with
    | none => simp [hx, hxs] at h
    | some ms1 =>
      simp [hx, hxs] at h
      exact ⟨m, ms1, rfl, rfl, h.symm⟩

theorem unmarshalAll_length : ∀ (xs : List JSON) (ms : List (List (String × JSON))),
    unmarshalAll xs = some ms → ms.length = xs.length
  | [], ms, h => by simp [unmarshalAll] at h; simp [← h]
  | x :: xs, ms, h => by
    obtain ⟨m, ms1, _, h2, rfl⟩ := unmarshalAll_cons_eq_some h
    simp [unmarshalAll_length xs ms1 h2]

theorem unmarshalElem_isSome_iff (y : JSON) :
    (∃ m, unmarshalElem y = some m) ↔ ((∃ kvs, y = JSON.obj kvs) ∨ y = JSON.null) := by
  cases y <;> simp [unmarshalElem]

theorem unmarshalAll_isSome_iff : ∀ (xs : List JSON),
    (∃ ms, unmarshalAll xs = some ms) ↔
      ∀ y ∈ xs, (∃ kvs, y = JSON.obj kvs) ∨ y = JSON.null
  | [] => by simp [unmarshalAll]
  | x :: xs => by
    have ih := unmarshalAll_isSome_iff xs
    constructor
    · rintro ⟨ms, h⟩ y hy
      obtain ⟨m, ms1, h1, h2, _⟩ := unmarshalAll_cons_eq_some h
      rcases List.mem_cons.1 hy with rfl | hy
      · exact (unmarshalElem_isSome_iff y).1 ⟨m, h1⟩
      · exact ih.1 ⟨ms1, h2⟩ y hy
    · intro hall
      obtain ⟨ms, hms⟩ := ih.2 (fun y hy => hall y (List.mem_cons_of_mem _ hy))
      obtain ⟨m, hm⟩ := (unmarshalElem_isSome_iff x).2 (hall x (List.mem_cons_self _ _))
      exact ⟨m :: ms, by simp [unmarshalAll, hm, hms]⟩

/-- The top-level values `json.Unmarshal` and the index `result[0]` accept:
the non-empty lists whose elements are objects or `null`. -/
theorem unmarshal_usable_iff (doc : JSON) :
    (∃ first rest, unmarshal doc = some (first :: rest)) ↔
      ∃ x xs, doc = JSON.arr (x :: xs) ∧
        ∀ y ∈ x :: xs, (∃ kvs, y = JSON.obj kvs) ∨ y = JSON.null := by
  constructor
  · rintro ⟨first, rest, h⟩
    cases doc with
    | arr ys =>
      cases ys with
      | nil => simp [unmarshal, unmarshalAll] at h
      | cons x xs =>
        exact ⟨x, xs, rfl, (unmarshalAll_isSome_iff _).1 ⟨_, h⟩⟩
    | null => simp [unmarshal] at h
    | bool _ => simp [unmarshal] at h
    | num _ => simp [unmarshal] at h
    | str _ => simp [unmarshal] at h
    | obj _ => simp [unmarshal] at h
  · rintro ⟨x, xs, rfl, hall⟩
    obtain ⟨ms, hms⟩ := (unmarshalAll_isSome_iff _).2 hall
    have hlen := unmarshalAll_length _ _ hms
    cases ms with
    | nil => simp at hlen
    | cons first rest => exact ⟨first, rest, hms⟩

theorem extractLayers_nonString (env : Codec) (x : JSON) (post : List JSON)
    (hx : ∀ s, x ≠ JSON.str s) : ∀ (pre : List String) (w : World),
    (extractLayers env w (pre.map JSON.str ++ x :: post)).failed = true ∧
    (extractLayers env w (pre.map JSON.str ++ x :: post)).world =
      (pre.foldl (layerStep env) (.done w)).world
  | [], w => by
    cases x with
    | str s => exact absurd rfl (hx s)
    | null => simp [extractLayers, Outcome.failed, Outcome.world]
    | bool _ => simp [extractLayers, Outcome.failed, Outcome.world]
    | num _ => simp [extractLayers, Outcome.failed, Outcome.world]
    | arr _ => simp [extractLayers, Outcome.failed, Outcome.world]
    | obj _ => simp [extractLayers, Outcome.failed, Outcome.world]
  | l :: pre, w => by
    simp only [List.map_cons, List.cons_append, extractLayers, List.foldl_cons, layerStep]
    cases openLayer env w l with
    | none => simp [foldl_layerStep_aborted, Outcome.failed, Outcome.world]
    | some r =>
      simp only []
      rcases hu : untar w.cwd w r with ⟨w1, e⟩
      cases e with
      | true => simp [foldl_layerStep_aborted, Outcome.failed, Outcome.world]
      | false => simpa using extractLayers_nonString env x post hx pre w1

/-- C10 (as stated, refuted): with `Layers = ["l1.tar", 7, "l2.tar"]` the call fails, but
only after `l1.tar` was applied: `a/b` is in the extraction tree afterwards
and was not before.  And a top-level list whose second element is `null`, not
an object, does not make the call fail. -/
theorem c10_layer_applied_before_failure :
    (extractFromManifest sampleCodec (sampleWorld [101] (fun _ => 5))).failed = true ∧
    shapeAt (sampleWorld [101] (fun _ => 5)).root ["work", "extraction", "a", "b"] = none ∧
    shapeAt (extractFromManifest sampleCodec (sampleWorld [101] (fun _ => 5))).world.root
      ["work", "extraction", "a", "b"] = some (.file 0o644 [7]) ∧
    (extractFromManifest sampleCodec (sampleWorld [102] (fun _ => 5))).failed = false := by
  decide

/-- C10 (amended): `extractImageToWorkDir` (lines 124-151) fails with the tree as it was
when `manifest.json` is absent, is not valid JSON, has a top-level value that
is not a non-empty list of objects or nulls, or has a first descriptor whose
`Layers` is missing or not a list.  When `Layers` is a list with a non-string
element it fails as well, but after the layers listed before that element
have been applied in order (up to the first of them that fails). -/
theorem c10_manifest_failure (env : Codec) (w : World) :
    ((readFile w (resolve w.cwd "manifest.json") = none ∨
      (∃ mj, readFile w (resolve w.cwd "manifest.json") = some mj ∧
        (env.jsonDecode mj = none ∨
         ∃ doc, env.jsonDecode mj = some doc ∧
          ((¬ ∃ x xs, doc = JSON.arr (x :: xs) ∧
              ∀ y ∈ x :: xs, (∃ kvs, y = JSON.obj kvs) ∨ y = JSON.null) ∨
           (∃ first rest, unmarshal doc = some (first :: rest) ∧
              ∀ ls, mapIndex "Layers" first ≠ some (JSON.arr ls)))))) →
      (extractFromManifest env w).failed = true ∧
      (extractFromManifest env w).world.root = w.root) ∧
    (∀ (w1 : World) (pre : List String) (x : JSON) (post : List JSON),
      chdir w ExtractionDir = some w1 →
      manifestLayers env w = some (some (JSON.arr (pre.map JSON.str ++ x :: post))) →
      (∀ s, x ≠ JSON.str s) →
      (extractFromManifest env w).failed = true ∧
      (extractFromManifest env w).world = (pre.foldl (layerStep env) (.done w1)).world) := by
  have hroot : (∀ ls, manifestLayers env w ≠ some (some (JSON.arr ls))) →
      (extractFromManifest env w).failed = true ∧
      (extractFromManifest env w).world.root = w.root := by
    intro hno
    unfold extractFromManifest
    cases hm : manifestLayers env w with
    | none => simp [Outcome.failed, Outcome.world]
    | some v =>
      cases hc : chdir w ExtractionDir with
      | none => simp [Outcome.failed, Outcome.world]
      | some w1 =>
        have hr := chdir_root hc
        cases v with
        | none => simp [Outcome.failed, Outcome.world, hr]
        | some j =>
          cases j with
          | arr ls => exact absurd hm (hno ls)
          | null => simp [Outcome.failed, Outcome.world, hr]
          | bool _ => simp [Outcome.failed, Outcome.world, hr]
          | num _ => simp [Outcome.failed, Outcome.world, hr]
          | str _ => simp [Outcome.failed, Outcome.world, hr]
          | obj _ => simp [Outcome.failed, Outcome.world, hr]
  refine ⟨fun hbad => ?_, fun w1 pre x post hc hm hx => ?_⟩
  · rcases hbad with h | ⟨mj, h, hj | ⟨doc, hd, hu | ⟨first, rest, hu, hl⟩⟩⟩
    · exact hroot (by simp [manifestLayers, h])
    · exact hroot (by simp [manifestLayers, h, hj])
    · have hnone : manifestLayers env w = none := by
        simp only [manifestLayers, h, hd]
        cases hum : unmarshal doc with
        | none => rfl
        | some ms =>
          cases ms with
          | nil => rfl
          | cons first rest => exact absurd ((unmarshal_usable_iff doc).1 ⟨first, rest, hum⟩) hu
      exact hroot (by simp [hnone])
    · exact hroot (by simp [manifestLayers, h, hd, hu]; exact hl)
  · simp only [extractFromManifest, hm, hc]
    exact extractLayers_nonString env x post hx pre w1

/-- Witness for C10: the sample work directory whose manifest has no `Layers`
member, and the one whose `Layers` holds a number after `l1.tar`. -/
theorem c10_manifest_failure_witness :
    ((extractFromManifest sampleCodec (sampleWorld [103] (fun _ => 5))).failed = true ∧
      (extractFromManifest sampleCodec (sampleWorld [103] (fun _ => 5))).world.root =
        (sampleWorld [103] (fun _ => 5)).root) ∧
    ((extractFromManifest sampleCodec (sampleWorld [101] (fun _ => 5))).failed = true ∧
      (extractFromManifest sampleCodec (sampleWorld [101] (fun _ => 5))).world =
        (["l1.tar"].foldl (layerStep sampleCodec)
          (.done (sampleWorldIn [101] (fun _ => 5)))).world) :=
  ⟨(c10_manifest_failure sampleCodec (sampleWorld [103] (fun _ => 5))).1
      (Or.inr ⟨[103], rfl, Or.inr ⟨_, rfl, Or.inr
        ⟨_, _, rfl, fun ls h => by simp [mapIndex] at h⟩⟩⟩),
    (c10_manifest_failure sampleCodec (sampleWorld [101] (fun _ => 5))).2
      (sampleWorldIn [101] (fun _ => 5)) ["l1.tar"] (.num "7") [.str "l2.tar"] rfl rfl
      (fun s h => by cases h)⟩

/-! ### Shapes after the filesystem operations -/

theorem getChild_setChild_same (n : String) (c : Node) : ∀ (cs : List (String × Node)),
    getChild n (setChild n c cs) = (getChild n cs).map (fun _ => c)
  | [] => rfl
  | (k, d) :: rest => by
    by_cases hk : k = n
    · simp [setChild, getChild, hk]
    · simp [setChild, getChild, hk, getChild_setChild_same n c rest]

theorem getChild_setChild_ne {k n : String} (c : Node) (h : k ≠ n) :
    ∀ (cs : List (String × Node)), getChild k (setChild n c cs) = getChild k cs
  | [] => rfl
  | (j, d) :: rest => by
    by_cases hj : j = n
    · have hnk : n ≠ k := fun e => h e.symm
      subst hj
      simp [setChild, getChild, hnk]
    · by_cases hjk : j = k
      · subst hjk
        simp [setChild, getChild, hj]
      · simp [setChild, getChild, hj, hjk, getChild_setChild_ne c h rest]

theorem names_setChild (n : String) (c : Node) : ∀ (cs : List (String × Node)),
    (setChild n c cs).map Prod.fst = cs.map Prod.fst
  | [] => rfl
  | (k, d) :: rest => by
    by_cases hk : k = n
    · simp [setChild, hk]
    · simp [setChild, hk, names_setChild n c rest]

theorem getChild_eq_none_iff {n : String} {cs : List (String × Node)} :
    getChild n cs = none ↔ n ∉ cs.map Prod.fst := by
  constructor
  · intro h hm
    obtain ⟨c, hc⟩ := getChild_isSome_of_mem hm
    rw [h] at hc; cases hc
  · intro h
    cases hc : getChild n cs with
    | none => rfl
    | some c => exact absurd (getChild_name_mem hc) h

@[simp] theorem shapeAt_nil (t : Node) : shapeAt t [] = some t.shape := by
  cases t <;> simp [shapeAt, Node.get?]

@[simp] theorem shapeAt_file_cons (m t : Nat) (c : Bytes) (n : String) (q : Path) :
    shapeAt (.file m t c) (n :: q) = none := by
  simp [shapeAt, Node.get?]

theorem shapeAt_dir_cons (m t : Nat) (cs : List (String × Node)) (n : String) (q : Path) :
    shapeAt (.dir m t cs) (n :: q) = match getChild n cs with
      | some c => shapeAt c q
      | none => none := by
  cases h : getChild n cs <;> simp [shapeAt, Node.get?, h]

theorem shapeAt_freshDirs (now perm : Nat) : ∀ (p q : Path),
    shapeAt (freshDirs now perm p) q = if q <+: p then some (.dir perm) else none
  | [], [] => by simp [freshDirs, Node.shape]
  | [], k :: q => by simp [freshDirs, shapeAt_dir_cons, getChild]
  | n :: p, [] => by simp [freshDirs, Node.shape]
  | n :: p, k :: q => by
    by_cases hk : n = k
    · subst hk
      simp [freshDirs, shapeAt_dir_cons, getChild, shapeAt_freshDirs now perm p q, List.cons_prefix_cons]
    · have hk1 : ¬ k = n := fun e => hk e.symm
      simp [freshDirs, shapeAt_dir_cons, getChild, hk, hk1, List.cons_prefix_cons]

theorem inheritFrom_shift (σ τ : Path → Option Shape) : ∀ (p b c : Path),
    (∀ q, σ (b ++ q) = τ (c ++ q)) → inheritFrom σ b p = inheritFrom τ c p
  | [], b, c, h => by
    have := h []
    simp only [List.append_nil] at this
    simp [inheritFrom, this]
  | n :: p, b, c, h => by
    have h0 := h []
    simp only [List.append_nil] at h0
    have h1 := h [n]
    simp only [inheritFrom, h0, h1]
    cases τ (c ++ [n]) with
    | none => rfl
    | some s =>
      exact inheritFrom_shift σ τ p (b ++ [n]) (c ++ [n]) (fun q => by
        simpa [List.append_assoc] using h (n :: q))

theorem inheritBit_child {m t : Nat} {cs : List (String × Node)} {n : String} {c : Node}
    (hc : getChild n cs = some c) (p : Path) :
    inheritBit (shapeAt (.dir m t cs)) (n :: p) = inheritBit (shapeAt c) p := by
  have h1 : shapeAt (.dir m t cs) ([] ++ [n]) = some c.shape := by
    simp [shapeAt_dir_cons, hc]
  simp only [inheritBit, inheritFrom, h1]
  exact inheritFrom_shift _ _ p _ _ (fun q => by simp [shapeAt_dir_cons, hc])

theorem inheritBit_missing {m t : Nat} {cs : List (String × Node)} {n : String}
    (hc : getChild n cs = none) (p : Path) :
    inheritBit (shapeAt (.dir m t cs)) (n :: p) = m &&& 0o2000 := by
  have h1 : shapeAt (.dir m t cs) [n] = none := by
    simp [shapeAt_dir_cons, hc]
  simp [inheritBit, inheritFrom, h1, sgidBit, Node.shape]

/-- What `os.MkdirAll` does to the shapes: the missing locations on the way to
`p`, `p` included, become directories carrying the set-group-ID bit of the
deepest directory that was there; nothing else changes. -/
theorem mkdirPath_shape (now perm : Nat) : ∀ (p : Path) (t u : Node),
    mkdirPath now perm t p = some u →
    ∀ q, shapeAt u q = match shapeAt t q with
      | some s => some s
      | none => if q <+: p then some (.dir (perm ||| inheritBit (shapeAt t) p)) else none
  | _, .file _ _ _, u, h => by simp [mkdirPath] at h
  | [], .dir m t cs, u, h => by
    simp [mkdirPath] at h
    subst h
    intro q
    cases hq : shapeAt (.dir m t cs) q with
    | some s => rfl
    | none =>
      cases q with
      | nil => simp at hq
      | cons k q => simp
  | n :: p, .dir m t cs, u, h => by
    intro q
    cases hc : getChild n cs with
    | some c =>
      simp only [mkdirPath, hc, Option.map_eq_some'] at h
      obtain ⟨c1, hc1, rfl⟩ := h
      have ih := mkdirPath_shape now perm p c c1 hc1
      rw [inheritBit_child hc]
      cases q with
      | nil => simp [Node.shape]
      | cons k q =>
        by_cases hk : k = n
        · subst hk
          rw [shapeAt_dir_cons, shapeAt_dir_cons, getChild_setChild_same, hc]
          simp only [Option.map_some']
          rw [ih q]
          simp [List.cons_prefix_cons]
        · rw [shapeAt_dir_cons, shapeAt_dir_cons, getChild_setChild_ne _ hk]
          cases hkc : getChild k cs with
          | none => simp [List.cons_prefix_cons, hk]
          | some d =>
            simp only []
            cases shapeAt d q with
            | some s => rfl
            | none => simp [List.cons_prefix_cons, hk]
    | none =>
      simp only [mkdirPath, hc, Option.some.injEq] at h
      subst h
      rw [inheritBit_missing hc]
      cases q with
      | nil => simp [Node.shape]
      | cons k q =>
        rw [shapeAt_dir_cons, shapeAt_dir_cons, getChild_append]
        cases hkc : getChild k cs with
        | some d =>
          have hk : k ≠ n := fun e => by rw [e, hc] at hkc; cases hkc
          simp only []
          cases shapeAt d q with
          | some s => rfl
          | none => simp [List.cons_prefix_cons, hk]
        | none =>
          by_cases hk : n = k
          · subst hk
            simp [getChild, shapeAt_freshDirs, List.cons_prefix_cons]
          · have hk1 : ¬ k = n := fun e => hk e.symm
            simp [getChild, hk, hk1, List.cons_prefix_cons]

/-- What `os.OpenFile` with `O_CREATE` does to the shapes: a missing `p`
becomes an empty file with the given permission bits; nothing else changes. -/
theorem openPath_shape (now perm : Nat) : ∀ (p : Path) (t u : Node),
    openPath now perm t p = some u →
    ∀ q, shapeAt u q = match shapeAt t q with
      | some s => some s
      | none => if q = p then some (.file perm []) else none
  | [], .file m t c, u, h => by
    simp [openPath] at h
    subst h
    intro q
    cases q with
    | nil => simp
    | cons k q => simp
  | [], .dir _ _ _, u, h => by simp [openPath] at h
  | _ :: _, .file _ _ _, u, h => by simp [openPath] at h
  | n :: p, .dir m t cs, u, h => by
    intro q
    cases hc : getChild n cs with
    | some c =>
      simp only [openPath, hc, Option.map_eq_some'] at h
      obtain ⟨c1, hc1, rfl⟩ := h
      have ih := openPath_shape now perm p c c1 hc1
      cases q with
      | nil => simp [Node.shape]
      | cons k q =>
        by_cases hk : k = n
        · subst hk
          rw [shapeAt_dir_cons, shapeAt_dir_cons, getChild_setChild_same, hc]
          simp only [Option.map_some']
          rw [ih q]
          simp
        · rw [shapeAt_dir_cons, shapeAt_dir_cons, getChild_setChild_ne _ hk]
          cases hkc : getChild k cs with
          | none => simp [hk]
          | some d =>
            simp only []
            cases shapeAt d q with
            | some s => rfl
            | none => simp [hk]
    | none =>
      cases p with
      | cons _ _ => simp [openPath, hc] at h
      | nil =>
        simp only [openPath, hc, Option.some.injEq] at h
        subst h
        cases q with
        | nil => simp [Node.shape]
        | cons k q =>
          rw [shapeAt_dir_cons, shapeAt_dir_cons, getChild_append]
          cases hkc : getChild k cs with
          | some d =>
            have hk : k ≠ n := fun e => by rw [e, hc] at hkc; cases hkc
            simp only []
            cases shapeAt d q with
            | some s => rfl
            | none => simp [hk]
          | none =>
            by_cases hk : n = k
            · subst hk
              cases q with
              | nil => simp [getChild, Node.shape]
              | cons j q => simp [getChild]
            · have hk1 : ¬ k = n := fun e => hk e.symm
              simp [getChild, hk, hk1]

/-- After a successful `os.OpenFile` there is a file at `p`: the one that was
there, or a new empty one. -/
theorem openPath_target (now perm : Nat) : ∀ (p : Path) (t u : Node),
    openPath now perm t p = some u →
    (∃ m c, shapeAt t p = some (.file m c)) ∨ shapeAt t p = none
  | [], .file m t c, u, _ => Or.inl ⟨m, c, by simp [Node.shape]⟩
  | [], .dir _ _ _, u, h => by simp [openPath] at h
  | _ :: _, .file _ _ _, u, h => by simp [openPath] at h
  | n :: p, .dir m t cs, u, h => by
    cases hc : getChild n cs with
    | some c =>
      simp only [openPath, hc, Option.map_eq_some'] at h
      obtain ⟨c1, hc1, rfl⟩ := h
      simpa [shapeAt_dir_cons, hc] using openPath_target now perm p c c1 hc1
    | none => exact Or.inr (by simp [shapeAt_dir_cons, hc])

/-- What writing `data` from offset 0 does to the shapes: the file at `p`
keeps its permission bits and what it held beyond the written bytes. -/
theorem writeAt_shape (now : Nat) (data : Bytes) : ∀ (p : Path) (t : Node) (m : Nat) (old : Bytes),
    shapeAt t p = some (.file m old) →
    ∀ q, shapeAt (writeAt now data t p) q =
      if q = p then some (.file m (data ++ old.drop data.length)) else shapeAt t q
  | [], .file m0 t c, m, old, h => by
    simp [Node.shape] at h
    obtain ⟨rfl, rfl⟩ := h
    intro q
    cases q with
    | nil =>
      by_cases hd : data = []
      · simp [writeAt, hd, Node.shape]
      · simp [writeAt, hd, Node.shape]
    | cons k q =>
      by_cases hd : data = []
      · simp [writeAt, hd]
      · simp [writeAt, hd]
  | [], .dir _ _ _, m, old, h => by simp [Node.shape] at h
  | _ :: _, .file _ _ _, m, old, h => by simp at h
  | n :: p, .dir m0 t cs, m, old, h => by
    intro q
    cases hc : getChild n cs with
    | none => simp [shapeAt_dir_cons, hc] at h
    | some c =>
      simp only [shapeAt_dir_cons, hc] at h
      have ih := writeAt_shape now data p c m old h
      simp only [writeAt, hc]
      cases q with
      | nil => simp [Node.shape]
      | cons k q =>
        by_cases hk : k = n
        · subst hk
          rw [shapeAt_dir_cons, shapeAt_dir_cons, getChild_setChild_same, hc]
          simp only [Option.map_some']
          rw [ih q]
          simp
        · rw [shapeAt_dir_cons, shapeAt_dir_cons, getChild_setChild_ne _ hk]
          simp [hk]

/-- The call `os.MkdirAll` succeeds when `p` does not exist and no location on the way
to it is a file. -/
theorem mkdirPath_isSome (now perm : Nat) : ∀ (p : Path) (t : Node),
    (∀ q, q <+: p → ∀ m c, shapeAt t q ≠ some (.file m c)) →
    ∃ u, mkdirPath now perm t p = some u
  | p, .file m t c, h => absurd (by simp [Node.shape]) (h [] List.nil_prefix m c)
  | [], .dir m t cs, _ => ⟨_, rfl⟩
  | n :: p, .dir m t cs, h => by
    cases hc : getChild n cs with
    | none => simp [mkdirPath, hc]
    | some c =>
      obtain ⟨u, hu⟩ := mkdirPath_isSome now perm p c (fun q hq m1 c1 => by
        have := h (n :: q) (by simpa [List.cons_prefix_cons] using hq) m1 c1
        simpa [shapeAt_dir_cons, hc] using this)
      simp [mkdirPath, hc, hu]

/-- The call `os.OpenFile` with `O_CREATE` succeeds on a missing name in an existing
directory. -/
theorem openPath_isSome_of_parent (now perm : Nat) : ∀ (par : Path) (n : String) (t : Node) (m : Nat),
    shapeAt t par = some (.dir m) → shapeAt t (par ++ [n]) = none →
    ∃ u, openPath now perm t (par ++ [n]) = some u
  | [], n, .file _ _ _, m, h, _ => by simp [Node.shape] at h
  | [], n, .dir m0 t cs, m, _, hn => by
    cases hc : getChild n cs with
    | none => simp [openPath, hc]
    | some c => simp [shapeAt_dir_cons, hc] at hn
  | k :: par, n, .file _ _ _, m, h, _ => by simp at h
  | k :: par, n, .dir m0 t cs, m, h, hn => by
    cases hc : getChild k cs with
    | none => simp [shapeAt_dir_cons, hc] at h
    | some c =>
      simp only [shapeAt_dir_cons, hc, List.cons_append] at h hn
      obtain ⟨u, hu⟩ := openPath_isSome_of_parent now perm par n c m h hn
      simp [openPath, hc, hu]

/-- The call `os.OpenFile` succeeds on an existing file. -/
theorem openPath_isSome_of_file (now perm : Nat) : ∀ (p : Path) (t : Node) (m : Nat) (c : Bytes),
    shapeAt t p = some (.file m c) → ∃ u, openPath now perm t p = some u
  | [], .file _ _ _, m, c, _ => ⟨_, rfl⟩
  | [], .dir _ _ _, m, c, h => by simp [Node.shape] at h
  | _ :: _, .file _ _ _, m, c, h => by simp at h
  | k :: p, .dir m0 t cs, m, c, h => by
    cases hc : getChild k cs with
    | none => simp [shapeAt_dir_cons, hc] at h
    | some d =>
      simp only [shapeAt_dir_cons, hc] at h
      obtain ⟨u, hu⟩ := openPath_isSome_of_file now perm p d m c h
      simp [openPath, hc, hu]

/-- When `os.MkdirAll` succeeds, no location on the way to `p` is a file. -/
theorem mkdirPath_noFile (now perm : Nat) : ∀ (p : Path) (t u : Node),
    mkdirPath now perm t p = some u →
    ∀ q, q <+: p → ∀ m c, shapeAt t q ≠ some (.file m c)
  | _, .file _ _ _, u, h => by simp [mkdirPath] at h
  | [], .dir m t cs, u, _ => by
    intro q hq m1 c1
    have : q = [] := List.prefix_nil.1 hq
    subst this
    simp [Node.shape]
  | n :: p, .dir m t cs, u, h => by
    intro q hq m1 c1
    cases q with
    | nil => simp [Node.shape]
    | cons k q =>
      obtain ⟨rfl, hq1⟩ := List.cons_prefix_cons.1 hq
      cases hc : getChild k cs with
      | none => simp [shapeAt_dir_cons, hc]
      | some c =>
        simp only [mkdirPath, hc, Option.map_eq_some'] at h
        obtain ⟨c1', hc1, _⟩ := h
        simpa [shapeAt_dir_cons, hc] using mkdirPath_noFile now perm p c c1' hc1 q hq1 m1 c1

/-- When `os.OpenFile` with `O_CREATE` succeeds, `p` is a file, or `p` is
missing and its parent is a directory. -/
theorem openPath_cases (now perm : Nat) : ∀ (p : Path) (t u : Node),
    openPath now perm t p = some u →
    (∃ m c, shapeAt t p = some (.file m c)) ∨
      (shapeAt t p = none ∧ ∃ par n m, p = par ++ [n] ∧ shapeAt t par = some (.dir m))
  | [], .file m t c, u, _ => Or.inl ⟨m, c, by simp [Node.shape]⟩
  | [], .dir _ _ _, u, h => by simp [openPath] at h
  | _ :: _, .file _ _ _, u, h => by simp [openPath] at h
  | n :: p, .dir m t cs, u, h => by
    cases hc : getChild n cs with
    | some c =>
      simp only [openPath, hc, Option.map_eq_some'] at h
      obtain ⟨c1, hc1, rfl⟩ := h
      rcases openPath_cases now perm p c c1 hc1 with h1 | ⟨h1, par, k, m1, rfl, h2⟩
      · exact Or.inl (by simpa [shapeAt_dir_cons, hc] using h1)
      · refine Or.inr ⟨by simpa [shapeAt_dir_cons, hc] using h1, n :: par, k, m1, rfl, ?_⟩
        simpa [shapeAt_dir_cons, hc] using h2
    | none =>
      cases p with
      | cons _ _ => simp [openPath, hc] at h
      | nil =>
        exact Or.inr ⟨by simp [shapeAt_dir_cons, hc], [], n, m, rfl, by simp [Node.shape]⟩

theorem mem_setChild {n : String} {c : Node} {k : String} {d : Node} :
    ∀ {cs : List (String × Node)}, (k, d) ∈ setChild n c cs → d = c ∨ (k, d) ∈ cs
  | [], h => by simp [setChild] at h
  | (j, e) :: rest, h => by
    by_cases hj : j = n
    · simp only [setChild, hj, if_true, List.mem_cons, Prod.mk.injEq] at h
      rcases h with ⟨_, h⟩ | h
      · exact Or.inl h
      · exact Or.inr (List.mem_cons_of_mem _ h)
    · simp only [setChild, hj, if_false, List.mem_cons, Prod.mk.injEq] at h
      rcases h with ⟨h1, h2⟩ | h
      · exact Or.inr (by simp [h1, h2])
      · rcases mem_setChild h with h | h
        · exact Or.inl h
        · exact Or.inr (List.mem_cons_of_mem _ h)

theorem wf_setChild {m t : Nat} {cs : List (String × Node)} {n : String} {c : Node}
    (h : (Node.dir m t cs).wf = true) (hc : c.wf = true) (t1 : Nat) :
    (Node.dir m t1 (setChild n c cs)).wf = true := by
  obtain ⟨hnd, hch⟩ := (wf_dir_iff m t cs).1 h
  refine (wf_dir_iff _ _ _).2 ⟨by rw [names_setChild]; exact hnd, ?_⟩
  intro k d hm
  rcases mem_setChild hm with rfl | hm
  · exact hc
  · exact hch k d hm

theorem wf_append {m t : Nat} {cs : List (String × Node)} {n : String} {c : Node}
    (h : (Node.dir m t cs).wf = true) (hn : getChild n cs = none) (hc : c.wf = true) (t1 : Nat) :
    (Node.dir m t1 (cs ++ [(n, c)])).wf = true := by
  obtain ⟨hnd, hch⟩ := (wf_dir_iff m t cs).1 h
  refine (wf_dir_iff _ _ _).2 ⟨?_, ?_⟩
  · rw [List.map_append, List.nodup_append]
    refine ⟨hnd, by simp, ?_⟩
    intro a ha hb
    simp only [List.map_cons, List.map_nil, List.mem_singleton] at hb
    subst hb
    exact getChild_eq_none_iff.1 hn ha
  · intro k d hm
    rcases List.mem_append.1 hm with hm | hm
    · exact hch k d hm
    · simp only [List.mem_singleton, Prod.mk.injEq] at hm
      rw [hm.2]; exact hc

theorem freshDirs_wf (now perm : Nat) : ∀ (p : Path), (freshDirs now perm p).wf = true
  | [] => by simp [freshDirs, Node.wf, wfList]
  | n :: p => by simp [freshDirs, Node.wf, wfList, freshDirs_wf now perm p]

theorem wf_child {m t : Nat} {cs : List (String × Node)} {n : String} {c : Node}
    (h : (Node.dir m t cs).wf = true) (hc : getChild n cs = some c) : c.wf = true :=
  ((wf_dir_iff m t cs).1 h).2 n c (getChild_mem hc)

theorem mkdirPath_wf (now perm : Nat) : ∀ (p : Path) (t u : Node), t.wf = true →
    mkdirPath now perm t p = some u → u.wf = true
  | _, .file _ _ _, u, _, h => by simp [mkdirPath] at h
  | [], .dir m t cs, u, hwf, h => by simp [mkdirPath] at h; subst h; exact hwf
  | n :: p, .dir m t cs, u, hwf, h => by
    cases hc : getChild n cs with
    | some c =>
      simp only [mkdirPath, hc, Option.map_eq_some'] at h
      obtain ⟨c1, hc1, rfl⟩ := h
      exact wf_setChild hwf (mkdirPath_wf now perm p c c1 (wf_child hwf hc) hc1) t
    | none =>
      simp only [mkdirPath, hc, Option.some.injEq] at h
      subst h
      exact wf_append hwf hc (freshDirs_wf now _ p) now

theorem openPath_wf (now perm : Nat) : ∀ (p : Path) (t u : Node), t.wf = true →
    openPath now perm t p = some u → u.wf = true
  | [], .file m t c, u, hwf, h => by simp [openPath] at h; subst h; exact hwf
  | [], .dir _ _ _, u, _, h => by simp [openPath] at h
  | _ :: _, .file _ _ _, u, _, h => by simp [openPath] at h
  | n :: p, .dir m t cs, u, hwf, h => by
    cases hc : getChild n cs with
    | some c =>
      simp only [openPath, hc, Option.map_eq_some'] at h
      obtain ⟨c1, hc1, rfl⟩ := h
      exact wf_setChild hwf (openPath_wf now perm p c c1 (wf_child hwf hc) hc1) t
    | none =>
      cases p with
      | cons _ _ => simp [openPath, hc] at h
      | nil =>
        simp only [openPath, hc, Option.some.injEq] at h
        subst h
        exact wf_append hwf hc (by simp [Node.wf]) now

theorem writeAt_wf (now : Nat) (data : Bytes) : ∀ (p : Path) (t : Node), t.wf = true →
    (writeAt now data t p).wf = true
  | [], .file m t c, _ => by
    by_cases hd : data = []
    · simp [writeAt, hd, Node.wf]
    · simp [writeAt, hd, Node.wf]
  | [], .dir _ _ _, hwf => by simpa [writeAt] using hwf
  | _ :: _, .file _ _ _, hwf => by simpa [writeAt] using hwf
  | n :: p, .dir m t cs, hwf => by
    cases hc : getChild n cs with
    | some c =>
      simp only [writeAt, hc]
      exact wf_setChild hwf (writeAt_wf now data p c (wf_child hwf hc)) t
    | none => simpa [writeAt, hc] using hwf

theorem get?_isSome_iff_shapeAt (t : Node) (p : Path) :
    t.get? p = none ↔ shapeAt t p = none := by
  simp [shapeAt]

theorem shapeAt_isSome (t : Node) (p : Path) :
    (shapeAt t p).isSome = (t.get? p).isSome := by
  simp [shapeAt]

/-- One turn of the loop of `untar` acts on the shapes as `shapeStep` says,
with the same error flag. -/
theorem applyAt_shape (target : Path) (ok : Nat) (w : World) (it : TarItem) :
    shapeAt (applyAt target ok w it).1.root =
      (shapeStep w.umask target ok it (shapeAt w.root)).1 ∧
    (applyAt target ok w it).2 = (shapeStep w.umask target ok it (shapeAt w.root)).2 := by
  cases htf : it.header.Typeflag with
  | TypeDir =>
    simp only [applyAt, htf, shapeStep, shapeAt_isSome]
    by_cases hA : target.length ≤ ok ∧ (w.root.get? target).isSome = true
    · rw [if_pos hA, if_pos hA]
      simp [World.tick]
    · rw [if_neg hA, if_neg hA]
      simp only [mkdirAll]
      by_cases hf : (target.take ok).inits.any
          (fun q => (shapeAt w.root q).any Shape.isFile) = true
      · have hnone : mkdirPath w.now (creationMode w.umask 0o755) w.root (target.take ok)
            = none := by
          cases hm : mkdirPath w.now (creationMode w.umask 0o755) w.root (target.take ok) with
          | none => rfl
          | some u =>
            obtain ⟨q, hq, hq2⟩ := List.any_eq_true.1 hf
            have hpre : q <+: target.take ok := (List.mem_inits _ _).1 hq
            cases hsq : shapeAt w.root q with
            | none => simp [hsq] at hq2
            | some s =>
              cases s with
              | dir m => simp [hsq, Shape.isFile] at hq2
              | file m c => exact absurd hsq (mkdirPath_noFile _ _ _ _ _ hm q hpre m c)
        rw [if_pos hf]
        simp [hnone, World.tick]
      · have hno : ∀ q, q <+: target.take ok → ∀ m c,
            shapeAt w.root q ≠ some (.file m c) := by
          intro q hq m c hsq
          apply hf
          exact List.any_eq_true.2 ⟨q, (List.mem_inits _ _).2 hq, by simp [hsq, Shape.isFile]⟩
        obtain ⟨u, hu⟩ :=
          mkdirPath_isSome w.now (creationMode w.umask 0o755) (target.take ok) w.root hno
        rw [if_neg hf]
        simp only [hu, World.tick]
        refine ⟨?_, trivial⟩
        funext q
        exact mkdirPath_shape w.now _ (target.take ok) w.root u hu q
  | TypeReg =>
    simp only [applyAt, htf, shapeStep, openFile]
    by_cases hfit : target.length ≤ ok
    · rw [if_pos hfit, if_pos hfit]
      cases hs : shapeAt w.root target with
      | some s =>
        cases s with
        | file m old =>
          obtain ⟨r, hr⟩ := openPath_isSome_of_file w.now
            (creationMode w.umask (fileMode it.header.Mode)) target w.root m old hs
          have hrs : ∀ q, shapeAt r q = shapeAt w.root q := by
            intro q
            rw [openPath_shape _ _ _ _ _ hr q]
            cases hq : shapeAt w.root q with
            | some s => rfl
            | none =>
              have : q ≠ target := fun e => by rw [e, hs] at hq; cases hq
              simp [this]
          simp only [hr, World.tick]
          refine ⟨?_, trivial⟩
          funext q
          rw [writeAt_shape _ _ _ _ m old (by rw [hrs]; exact hs) q, hrs]
        | dir m =>
          have hnone : openPath w.now (creationMode w.umask (fileMode it.header.Mode))
              w.root target = none := by
            cases ho : openPath w.now (creationMode w.umask (fileMode it.header.Mode))
                w.root target with
            | none => rfl
            | some u =>
              rcases openPath_cases _ _ _ _ _ ho with ⟨m1, c1, h1⟩ | ⟨h1, _⟩
              · rw [hs] at h1; cases h1
              · rw [hs] at h1; cases h1
          simp [hnone, World.tick]
      | none =>
        by_cases hp : target ≠ [] ∧ (shapeAt w.root target.dropLast).any Shape.isDir = true
        · obtain ⟨hne, hdir⟩ := hp
          have hsplit : target = target.dropLast ++ [target.getLast hne] :=
            (List.dropLast_append_getLast hne).symm
          obtain ⟨m, hm⟩ : ∃ m, shapeAt w.root target.dropLast = some (.dir m) := by
            cases hsd : shapeAt w.root target.dropLast with
            | none => simp [hsd] at hdir
            | some s =>
              cases s with
              | file _ _ => simp [hsd, Shape.isDir] at hdir
              | dir m => exact ⟨m, rfl⟩
          obtain ⟨r, hr⟩ : ∃ r, openPath w.now
              (creationMode w.umask (fileMode it.header.Mode)) w.root target = some r := by
            rw [hsplit]
            exact openPath_isSome_of_parent _ _ _ _ _ m hm (by rw [← hsplit]; exact hs)
          have hrs : ∀ q, shapeAt r q =
              if q = target then
                some (.file (creationMode w.umask (fileMode it.header.Mode)) [])
              else shapeAt w.root q := by
            intro q
            rw [openPath_shape _ _ _ _ _ hr q]
            by_cases hq : q = target
            · subst hq; simp [hs]
            · cases hsq : shapeAt w.root q <;> simp [hq]
          simp only [hr, World.tick, hne, hdir, ne_eq, not_false_eq_true, and_self, if_true]
          refine ⟨?_, trivial⟩
          funext q
          rw [writeAt_shape _ _ _ _ (creationMode w.umask (fileMode it.header.Mode)) []
            (by rw [hrs]; simp) q, hrs]
          by_cases hq : q = target <;> simp [hq]
        · have hnone : openPath w.now (creationMode w.umask (fileMode it.header.Mode))
              w.root target = none := by
            cases ho : openPath w.now (creationMode w.umask (fileMode it.header.Mode))
                w.root target with
            | none => rfl
            | some u =>
              rcases openPath_cases _ _ _ _ _ ho with ⟨m1, c1, h1⟩ | ⟨_, par, n, m1, h1, h2⟩
              · rw [hs] at h1; cases h1
              · exfalso
                apply hp
                subst h1
                simp [h2, Shape.isDir]
          simp only [hnone, World.tick]
          rw [if_neg hp]
          simp
    · rw [if_neg hfit, if_neg hfit]
      simp [World.tick]
  | TypeSymlink => simp [applyAt, htf, shapeStep, World.tick]
  | TypeLink => simp [applyAt, htf, shapeStep, World.tick]
  | other => simp [applyAt, htf, shapeStep, World.tick]

theorem applyItem_shape (dst : Path) (w : World) (it : TarItem) :
    shapeAt (applyItem dst w it).1.root =
      (shapeStep w.umask (joinPath dst it.header.Name)
        (fitCount (PATH_MAX - 1) (joinPath dst it.header.Name)) it (shapeAt w.root)).1 ∧
    (applyItem dst w it).2 =
      (shapeStep w.umask (joinPath dst it.header.Name)
        (fitCount (PATH_MAX - 1) (joinPath dst it.header.Name)) it (shapeAt w.root)).2 :=
  applyAt_shape _ _ w it

/-! ### The loop of untar on shapes -/

theorem applyItem_cwd (dst : Path) (w : World) (it : TarItem) :
    (applyItem dst w it).1.cwd = w.cwd ∧ (applyItem dst w it).1.umask = w.umask := by
  unfold applyItem applyAt mkdirAll
  cases it.header.Typeflag <;> simp only [] <;> (try split) <;> (try split) <;> simp [World.tick]

theorem applyAt_wf (target : Path) (ok : Nat) (w : World) (it : TarItem)
    (h : w.root.wf = true) : (applyAt target ok w it).1.root.wf = true := by
  unfold applyAt mkdirAll openFile
  cases it.header.Typeflag with
  | TypeDir =>
    simp only []
    split
    · simpa [World.tick] using h
    · split
      · simpa [World.tick] using h
      · rename_i r hr
        simpa [World.tick] using mkdirPath_wf _ _ _ _ _ h hr
  | TypeReg =>
    simp only []
    by_cases hfit : target.length ≤ ok
    · rw [if_pos hfit]
      cases ho : openPath w.now (creationMode w.umask (fileMode it.header.Mode)) w.root target with
      | none => simpa [World.tick] using h
      | some r => simpa [World.tick] using writeAt_wf _ _ _ _ (openPath_wf _ _ _ _ _ h ho)
    · rw [if_neg hfit]
      simpa [World.tick] using h
  | TypeSymlink => simpa [World.tick] using h
  | TypeLink => simpa [World.tick] using h
  | other => simpa [World.tick] using h

theorem applyItem_wf (dst : Path) (w : World) (it : TarItem) (h : w.root.wf = true) :
    (applyItem dst w it).1.root.wf = true :=
  applyAt_wf _ _ w it h

theorem untarLoop_inv (dst : Path) : ∀ (items : List TarItem) (w : World) (bad : Bool),
    ((untarLoop dst w items bad).1.cwd = w.cwd ∧
      (untarLoop dst w items bad).1.umask = w.umask) ∧
    (w.root.wf = true → (untarLoop dst w items bad).1.root.wf = true) ∧
    shapeAt (untarLoop dst w items bad).1.root =
      (shapeLoop w.umask dst (shapeAt w.root) items bad).1 ∧
    (untarLoop dst w items bad).2 = (shapeLoop w.umask dst (shapeAt w.root) items bad).2
  | [], w, bad => by simp [untarLoop, shapeLoop]
  | it :: items, w, bad => by
    have hs := applyItem_shape dst w it
    have hc := applyItem_cwd dst w it
    have hw := applyItem_wf dst w it
    simp only [untarLoop, shapeLoop]
    rcases ha : applyItem dst w it with ⟨w1, e⟩
    rcases hb : shapeStep w.umask (joinPath dst it.header.Name)
        (fitCount (PATH_MAX - 1) (joinPath dst it.header.Name)) it (shapeAt w.root) with ⟨σ1, e1⟩
    rw [ha, hb] at hs
    rw [ha] at hc hw
    simp only at hs hc hw
    obtain ⟨hs1, hs2⟩ := hs
    subst hs2
    cases e with
    | true => exact ⟨hc, hw, hs1, rfl⟩
    | false =>
      have ih := untarLoop_inv dst items w1 bad
      simp only []
      rw [← hs1, ← hc.2]
      exact ⟨⟨ih.1.1.trans hc.1, ih.1.2⟩, fun h => ih.2.1 (hw h), ih.2.2.1, ih.2.2.2⟩

/-- The function `untar` acts on the shapes as `shapeLoop` says. -/
theorem untar_shape (dst : Path) (w : World) (r : Archive) :
    shapeAt (untar dst w r).1.root = (shapeLoop w.umask dst (shapeAt w.root) r.items r.bad).1 ∧
    (untar dst w r).2 = (shapeLoop w.umask dst (shapeAt w.root) r.items r.bad).2 :=
  (untarLoop_inv dst r.items w r.bad).2.2

theorem untar_cwd (dst : Path) (w : World) (r : Archive) : (untar dst w r).1.cwd = w.cwd :=
  (untarLoop_inv dst r.items w r.bad).1.1

theorem untar_umask (dst : Path) (w : World) (r : Archive) :
    (untar dst w r).1.umask = w.umask :=
  (untarLoop_inv dst r.items w r.bad).1.2

theorem untar_wf (dst : Path) (w : World) (r : Archive) (h : w.root.wf = true) :
    (untar dst w r).1.root.wf = true :=
  (untarLoop_inv dst r.items w r.bad).2.1 h

/-- Nothing is ever removed or changes type: a directory stays the directory
it was, a file stays a file with its permission bits. -/
theorem shapeStep_persist (umask : Nat) (target : Path) (ok : Nat) (it : TarItem)
    (σ : Path → Option Shape) (q : Path) :
    (∀ m, σ q = some (.dir m) → (shapeStep umask target ok it σ).1 q = some (.dir m)) ∧
    (∀ m c, σ q = some (.file m c) →
      ∃ c1, (shapeStep umask target ok it σ).1 q = some (.file m c1)) := by
  unfold shapeStep
  cases it.header.Typeflag with
  | TypeDir =>
    simp only []
    split
    · exact ⟨fun m h => h, fun m c h => ⟨c, h⟩⟩
    · split
      · exact ⟨fun m h => h, fun m c h => ⟨c, h⟩⟩
      · exact ⟨fun m h => by simp [h], fun m c h => ⟨c, by simp [h]⟩⟩
  | TypeReg =>
    simp only []
    by_cases hfit : target.length ≤ ok
    · rw [if_pos hfit]
      cases hs : σ target with
      | some s =>
        cases s with
        | file m0 old =>
          simp only []
          by_cases hq : q = target
          · subst hq
            refine ⟨fun m h => (by rw [hs] at h; cases h), fun m c h => ?_⟩
            rw [hs] at h
            cases h
            simp
          · exact ⟨fun m h => by simp [hq, h], fun m c h => ⟨c, by simp [hq, h]⟩⟩
        | dir m0 => exact ⟨fun m h => h, fun m c h => ⟨c, h⟩⟩
      | none =>
        simp only []
        split
        · by_cases hq : q = target
          · subst hq
            exact ⟨fun m h => (by rw [hs] at h; cases h),
              fun m c h => (by rw [hs] at h; cases h)⟩
          · exact ⟨fun m h => by simp [hq, h], fun m c h => ⟨c, by simp [hq, h]⟩⟩
        · exact ⟨fun m h => h, fun m c h => ⟨c, h⟩⟩
    · rw [if_neg hfit]
      exact ⟨fun m h => h, fun m c h => ⟨c, h⟩⟩
  | TypeSymlink => exact ⟨fun m h => h, fun m c h => ⟨c, h⟩⟩
  | TypeLink => exact ⟨fun m h => h, fun m c h => ⟨c, h⟩⟩
  | other => exact ⟨fun m h => h, fun m c h => ⟨c, h⟩⟩

theorem shapeLoop_persist (umask : Nat) (dst : Path) (q : Path) : ∀ (items : List TarItem)
    (σ : Path → Option Shape) (bad : Bool),
    (∀ m, σ q = some (.dir m) → (shapeLoop umask dst σ items bad).1 q = some (.dir m)) ∧
    (∀ m c, σ q = some (.file m c) → ∃ c1, (shapeLoop umask dst σ items bad).1 q = some (.file m c1))
  | [], σ, bad => ⟨fun m h => h, fun m c h => ⟨c, h⟩⟩
  | it :: items, σ, bad => by
    have hp := shapeStep_persist umask (joinPath dst it.header.Name)
      (fitCount (PATH_MAX - 1) (joinPath dst it.header.Name)) it σ q
    simp only [shapeLoop]
    rcases hb : shapeStep umask (joinPath dst it.header.Name)
      (fitCount (PATH_MAX - 1) (joinPath dst it.header.Name)) it σ with ⟨σ1, e⟩
    rw [hb] at hp
    cases e with
    | true => exact hp
    | false =>
      have ih := shapeLoop_persist umask dst q items σ1 bad
      refine ⟨fun m h => ih.1 m (hp.1 m h), fun m c h => ?_⟩
      obtain ⟨c1, h1⟩ := hp.2 m c h
      exact ih.2 m c1 h1

/-- A regular-file member applied without error leaves a file at its target. -/
theorem shapeStep_reg (umask : Nat) (target : Path) (ok : Nat) (it : TarItem)
    (σ : Path → Option Shape)
    (hreg : it.header.Typeflag = .TypeReg) (hok : (shapeStep umask target ok it σ).2 = false) :
    ∃ m c, (shapeStep umask target ok it σ).1 target = some (.file m c) := by
  unfold shapeStep at hok ⊢
  simp only [hreg] at hok ⊢
  by_cases hfit : target.length ≤ ok
  · rw [if_pos hfit] at hok ⊢
    cases hs : σ target with
    | some s =>
      cases s with
      | file m0 old => simp
      | dir m0 => simp [hs] at hok
    | none =>
      simp only [hs] at hok ⊢
      split
      · simp
      · rename_i h; simp [h] at hok
  · rw [if_neg hfit] at hok
    simp at hok

/-- After a run of `untar` without error, every regular-file member of the
archive has a file at its target. -/
theorem shapeLoop_reg (umask : Nat) (dst : Path) : ∀ (items : List TarItem) (σ : Path → Option Shape)
    (bad : Bool), (shapeLoop umask dst σ items bad).2 = false →
    ∀ it ∈ items, it.header.Typeflag = .TypeReg →
    ∃ m c, (shapeLoop umask dst σ items bad).1 (joinPath dst it.header.Name) = some (.file m c)
  | [], σ, bad, _, it, hit, _ => by simp at hit
  | x :: items, σ, bad, hok, it, hit, hreg => by
    simp only [shapeLoop] at hok ⊢
    have hsr := shapeStep_reg umask (joinPath dst x.header.Name)
      (fitCount (PATH_MAX - 1) (joinPath dst x.header.Name)) x σ
    rcases hb : shapeStep umask (joinPath dst x.header.Name)
      (fitCount (PATH_MAX - 1) (joinPath dst x.header.Name)) x σ with ⟨σ1, e⟩
    rw [hb] at hok hsr
    cases e with
    | true => simp at hok
    | false =>
      simp only [] at hok ⊢
      rcases List.mem_cons.1 hit with rfl | hit
      · obtain ⟨m, c, h⟩ := hsr hreg rfl
        exact ⟨m, (shapeLoop_persist umask dst _ items σ1 bad).2 m c h⟩
      · exact shapeLoop_reg umask dst items σ1 bad hok it hit hreg

/-! ### The archive and the shapes -/

theorem get?_append : ∀ (p q : Path) (t : Node),
    t.get? (p ++ q) = (t.get? p).bind (fun u => u.get? q)
  | [], q, t => by simp [Node.get?]
  | n :: p, q, .file _ _ _ => by simp [Node.get?]
  | n :: p, q, .dir m t cs => by
    cases hc : getChild n cs with
    | none => simp [Node.get?, hc]
    | some c => simpa [Node.get?, hc] using get?_append p q c

theorem shapeAt_append {root t : Node} {p : Path} (h : root.get? p = some t) (q : Path) :
    shapeAt root (p ++ q) = shapeAt t q := by
  simp [shapeAt, get?_append, h]

/-- A location that exists has all the locations on the way to it. -/
theorem shapeAt_prefix {t : Node} {p q : Path} (hq : q <+: p) (h : shapeAt t p ≠ none) :
    shapeAt t q ≠ none := by
  obtain ⟨r, rfl⟩ := hq
  intro hn
  apply h
  have : t.get? q = none := (get?_isSome_iff_shapeAt t q).2 hn
  simp [shapeAt, get?_append, this]

@[simp] theorem entryShape_entryOf (p : Path) (nd : Node) : entryShape (entryOf p nd) = nd.shape := by
  cases nd <;> rfl

/-- The archive written by `createTarball` has, for each location below the
working directory, exactly the entries of the objects there. -/
theorem createTarball_shapes (w : World) (t : Node) (ht : w.root.get? w.cwd = some t) :
    createTarball w = some (walk [] t) ∧
    ∀ q s, shapeAt w.root (w.cwd ++ q) = some s ↔
      ∃ e ∈ walk [] t, e.path = q ∧ entryShape e = s := by
  refine ⟨by simp [createTarball, ht], fun q s => ?_⟩
  rw [shapeAt_append ht]
  constructor
  · intro h
    simp only [shapeAt, Option.map_eq_some'] at h
    obtain ⟨nd, hnd, rfl⟩ := h
    exact ⟨entryOf q nd, by simpa using walk_complete q t [] nd hnd, by simp, by simp⟩
  · rintro ⟨e, he, rfl, rfl⟩
    obtain ⟨q, nd, hq, rfl⟩ := walk_sound t [] e he
    simp only [List.nil_append, entryOf_path, entryShape_entryOf]
    simp [shapeAt, hq]

theorem entry_of_file_shape {e : Entry} {t : Node} {m : Nat} {c : Bytes}
    (he : e ∈ walk [] t) (hs : entryShape e = .file m c) :
    e.Typeflag = .TypeReg ∧ e.Mode = m ∧ e.content = c ∧ e.Size = c.length := by
  obtain ⟨q, nd, _, rfl⟩ := walk_sound t [] e he
  cases nd with
  | file m0 t0 c0 =>
    simp [entryShape, entryOf] at hs
    simp [entryOf, hs]
  | dir m0 t0 cs => simp [entryShape, entryOf] at hs

theorem walkSegs_clean : ∀ (segs : List String) (base : Path), ".." ∉ segs →
    walkSegs base segs = base ++ segs.filter (fun s => decide (s ≠ "" ∧ s ≠ "."))
  | [], base, _ => by simp [walkSegs]
  | s :: segs, base, h => by
    have hs : s ≠ ".." := fun e => h (by simp [e])
    have hrest : ".." ∉ segs := fun e => h (List.mem_cons_of_mem _ e)
    have ih := walkSegs_clean segs
    simp only [walkSegs, List.foldl_cons] at ih ⊢
    by_cases h1 : s = "" ∨ s = "."
    · have : ¬ (s ≠ "" ∧ s ≠ ".") := by
        rcases h1 with h1 | h1 <;> simp [h1]
      rw [ih _ hrest]
      simp [stepSeg, h1, List.filter_cons, this]
    · have : s ≠ "" ∧ s ≠ "." := by
        constructor
        · exact fun e => h1 (Or.inl e)
        · exact fun e => h1 (Or.inr e)
      rw [ih _ hrest]
      simp [stepSeg, h1, hs, List.filter_cons, this]

/-- Without a `..` segment the target of `filepath.Join(dst, name)` is `dst`
followed by the names in `name`. -/
theorem joinPath_clean (dst : Path) (name : String) (h : ".." ∉ segments name) :
    joinPath dst name = dst ++ nameComps name :=
  walkSegs_clean (segments name) dst h

theorem shapeStep_frame (umask : Nat) (dst target : Path) (ok : Nat) (it : TarItem)
    (σ : Path → Option Shape)
    (ht : dst <+: target) (hex : ∀ q, q <+: dst → σ q ≠ none) :
    ∀ q, ¬ dst <+: q → (shapeStep umask target ok it σ).1 q = σ q := by
  intro q hq
  unfold shapeStep
  cases it.header.Typeflag with
  | TypeDir =>
    simp only []
    split
    · rfl
    · split
      · rfl
      · simp only []
        cases hs : σ q with
        | some s => rfl
        | none =>
          have : ¬ q <+: target.take ok := by
            intro hqt
            rcases List.prefix_or_prefix_of_prefix
              (hqt.trans (List.take_prefix ok target)) ht with h | h
            · exact hex q h hs
            · exact hq h
          simp [this]
  | TypeReg =>
    have hne : q ≠ target := fun e => hq (e ▸ ht)
    simp only []
    split
    · cases σ target with
      | some s =>
        cases s with
        | file m old => simp [hne]
        | dir m => rfl
      | none =>
        simp only []
        split
        · simp [hne]
        · rfl
    · rfl
  | TypeSymlink => rfl
  | TypeLink => rfl
  | other => rfl

theorem shapeLoop_frame (umask : Nat) (dst : Path) : ∀ (items : List TarItem) (σ : Path → Option Shape)
    (bad : Bool), (∀ it ∈ items, dst <+: joinPath dst it.header.Name) →
    (∀ q, q <+: dst → σ q ≠ none) →
    ∀ q, ¬ dst <+: q → (shapeLoop umask dst σ items bad).1 q = σ q
  | [], σ, bad, _, _, q, _ => rfl
  | it :: items, σ, bad, hn, hex, q, hq => by
    have hf := shapeStep_frame umask dst (joinPath dst it.header.Name)
      (fitCount (PATH_MAX - 1) (joinPath dst it.header.Name)) it σ
      (hn it (List.mem_cons_self _ _)) hex q hq
    have hp := fun q => shapeStep_persist umask (joinPath dst it.header.Name)
      (fitCount (PATH_MAX - 1) (joinPath dst it.header.Name)) it σ q
    simp only [shapeLoop]
    rcases hb : shapeStep umask (joinPath dst it.header.Name)
      (fitCount (PATH_MAX - 1) (joinPath dst it.header.Name)) it σ with ⟨σ1, e⟩
    rw [hb] at hf hp
    simp only at hf hp
    cases e with
    | true => exact hf
    | false =>
      simp only []
      rw [shapeLoop_frame umask dst items σ1 bad (fun x hx => hn x (List.mem_cons_of_mem _ hx)) ?_ q hq, hf]
      intro p hpd hnone
      cases hs : σ p with
      | none => exact hex p hpd hs
      | some s =>
        cases s with
        | dir m => rw [(hp p).1 m hs] at hnone; cases hnone
        | file m c =>
          obtain ⟨c1, h1⟩ := (hp p).2 m c hs
          rw [h1] at hnone; cases hnone

/-! ### C2-C5: override, markers and path safety on concrete layers -/

/-- C2 (failing input): layer 1 holds `f` with the four bytes `1 2 3 4`, layer 2 holds
`f` with the two bytes `9 9`.  Both apply without error; `f` is written once,
with size 4 and content `9 9 3 4`: the file is opened without truncation, so
the tail of the old content stays. -/
theorem c2_shorter_content_keeps_old_tail :
    (untar worldE.cwd worldE layerOld).2 = false ∧
    (untar worldE.cwd (untar worldE.cwd worldE layerOld).1 layerNew).2 = false ∧
    summary (createTarball (untar worldE.cwd (untar worldE.cwd worldE layerOld).1 layerNew).1) =
      some [(".", 0, []), ("f", 4, [9, 9, 3, 4])] := by
  decide

/-- C3 (as stated, refuted): layer 1 creates `a/b`, layer 2 holds the deletion marker
`a/.wh.b`; the archive still has `a/b`, and has the marker as a file. -/
theorem c3_marker_deletes_nothing :
    (untar worldE.cwd worldE layerAB).2 = false ∧
    (untar worldE.cwd (untar worldE.cwd worldE layerAB).1 layerWhiteoutAB).2 = false ∧
    summary (createTarball (untar worldE.cwd (untar worldE.cwd worldE layerAB).1 layerWhiteoutAB).1) =
      some [(".", 0, []), ("a", 0, []), ("a/.wh.b", 0, []), ("a/b", 1, [7])] := by
  decide

/-- C4 (as stated, refuted): layer 1 creates `dir/x` and `dir/y`, layer 2 holds the
opaque marker of `dir` followed by `dir/z`; the archive has `dir/z`, still has
`dir/x` and `dir/y`, and has the marker as a file. -/
theorem c4_opaque_marker_resets_nothing :
    (untar worldE.cwd worldE layerDirXY).2 = false ∧
    (untar worldE.cwd (untar worldE.cwd worldE layerDirXY).1 layerOpaqueZ).2 = false ∧
    summary (createTarball (untar worldE.cwd (untar worldE.cwd worldE layerDirXY).1 layerOpaqueZ).1) =
      some [(".", 0, []), ("dir", 0, []), ("dir/.wh..wh..opq", 0, []), ("dir/x", 1, [1]),
        ("dir/y", 1, [2]), ("dir/z", 1, [3])] := by
  decide

/-- C5 (as stated, refuted): a member named `../escape` is applied without error and
creates the file `escape` next to the tree root, outside it; a member with the
absolute name `/abs` is applied without error too (inside the tree). -/
theorem c5_escape_is_written_outside :
    (untar worldE.cwd worldE layerEscape).2 = false ∧
    shapeAt worldE.root ["work", "escape"] = none ∧
    shapeAt (untar worldE.cwd worldE layerEscape).1.root ["work", "escape"] =
      some (.file 0o644 [1]) ∧
    ¬ worldE.cwd <+: ["work", "escape"] ∧
    (untar worldE.cwd worldE layerAbsolute).2 = false ∧
    shapeAt (untar worldE.cwd worldE layerAbsolute).1.root ["work", "extraction", "abs"] =
      some (.file 0o644 [1]) := by
  decide

/-! ### C3: deletion markers -/

/-- A file in the tree below the working directory is in the archive, as one
regular-file entry with its permission bits, size and content. -/
theorem archive_has_file (w : World) (q : Path) (m : Nat) (c : Bytes)
    (h : shapeAt w.root (w.cwd ++ q) = some (.file m c)) :
    ∃ t, w.root.get? w.cwd = some t ∧ createTarball w = some (walk [] t) ∧
      ∃ e ∈ walk [] t, e.path = q ∧ e.Typeflag = .TypeReg ∧ e.Mode = m ∧
        e.content = c ∧ e.Size = c.length := by
  have hcwd : shapeAt w.root w.cwd ≠ none :=
    shapeAt_prefix (List.prefix_append _ _) (by rw [h]; simp)
  cases ht : w.root.get? w.cwd with
  | none => exact absurd ((get?_isSome_iff_shapeAt _ _).1 ht) hcwd
  | some t =>
    obtain ⟨hct, hsh⟩ := createTarball_shapes w t ht
    obtain ⟨e, he, hp, hs⟩ := (hsh q _).1 h
    exact ⟨t, rfl, hct, e, he, hp, entry_of_file_shape he hs⟩

/-- C3 (amended): for every two layers applied in that order where the first leaves the
regular file `a/b` and the second, applied without error, holds the
deletion-marker member `a/.wh.b`, the archive written by `createTarball` still
has the entry `a/b`, and has the marker as the regular-file entry `a/.wh.b`:
`untar` gives a deletion marker no meaning. -/
theorem c3_deletion_marker_is_a_plain_file (w : World) (L1 L2 : Archive)
    (hab : ∃ m c, shapeAt (untar w.cwd w L1).1.root (w.cwd ++ ["a", "b"]) = some (.file m c))
    (h2 : (untar w.cwd (untar w.cwd w L1).1 L2).2 = false)
    (hmark : ∃ it ∈ L2.items, it.header.Name = "a/.wh.b" ∧ it.header.Typeflag = .TypeReg) :
    ∃ es, createTarball (untar w.cwd (untar w.cwd w L1).1 L2).1 = some es ∧
      (∃ e ∈ es, e.Name = "a/b" ∧ e.Typeflag = .TypeReg) ∧
      (∃ e ∈ es, e.Name = "a/.wh.b" ∧ e.Typeflag = .TypeReg) := by
  obtain ⟨m, c, hab⟩ := hab
  obtain ⟨it, hit, hname, hreg⟩ := hmark
  have hsh := untar_shape w.cwd (untar w.cwd w L1).1 L2
  have hcwd : (untar w.cwd (untar w.cwd w L1).1 L2).1.cwd = w.cwd := by
    rw [untar_cwd, untar_cwd]
  rw [hsh.2] at h2
  obtain ⟨c1, hab2⟩ := (shapeLoop_persist _ w.cwd _ L2.items _ L2.bad).2 m c hab
  obtain ⟨m2, c2, hmk⟩ := shapeLoop_reg _ w.cwd L2.items _ L2.bad h2 it hit hreg
  rw [← hsh.1] at hab2 hmk
  rw [hname, joinPath_clean _ _ (by decide),
    show nameComps "a/.wh.b" = ["a", ".wh.b"] from by decide] at hmk
  have e1 := archive_has_file (untar w.cwd (untar w.cwd w L1).1 L2).1 ["a", "b"] m c1
    (by rw [hcwd]; exact hab2)
  have e2 := archive_has_file (untar w.cwd (untar w.cwd w L1).1 L2).1 ["a", ".wh.b"] m2 c2
    (by rw [hcwd]; exact hmk)
  obtain ⟨t, ht, hct, e, he, hp, hty, _⟩ := e1
  obtain ⟨t1, ht1, _, f, hf, hfp, hfty, _⟩ := e2
  rw [ht] at ht1
  cases ht1
  exact ⟨walk [] t, hct, ⟨e, he, by rw [Entry.Name, hp]; decide, hty⟩,
    ⟨f, hf, by rw [Entry.Name, hfp]; decide, hfty⟩⟩

/-- Witness for C3: layer `a`, `a/b` followed by the layer holding `a/.wh.b`, in the sample extraction directory. -/
theorem c3_deletion_marker_is_a_plain_file_witness :
    (∃ m c, shapeAt (untar worldE.cwd worldE layerAB).1.root (worldE.cwd ++ ["a", "b"]) =
      some (.file m c)) ∧
    (untar worldE.cwd (untar worldE.cwd worldE layerAB).1 layerWhiteoutAB).2 = false ∧
    (∃ it ∈ layerWhiteoutAB.items, it.header.Name = "a/.wh.b" ∧ it.header.Typeflag = .TypeReg) ∧
    ∃ es, createTarball (untar worldE.cwd (untar worldE.cwd worldE layerAB).1 layerWhiteoutAB).1
        = some es ∧
      (∃ e ∈ es, e.Name = "a/b" ∧ e.Typeflag = .TypeReg) ∧
      (∃ e ∈ es, e.Name = "a/.wh.b" ∧ e.Typeflag = .TypeReg) :=
  ⟨⟨0o644, [7], by decide⟩, by decide, ⟨regItem "a/.wh.b" [], by decide, by decide, by decide⟩,
    c3_deletion_marker_is_a_plain_file worldE layerAB layerWhiteoutAB
      ⟨0o644, [7], by decide⟩ (by decide)
      ⟨regItem "a/.wh.b" [], by decide, by decide, by decide⟩⟩

/-! ### C4 and C5 -/

/-- C4 (amended): for every two layers applied in that order where the first leaves the
files `dir/x` and `dir/y` and the second, applied without error, holds the
opaque-marker member `dir/.wh..wh..opq` and the regular-file member `dir/z`,
the archive written by `createTarball` has `dir/z`, still has `dir/x` and
`dir/y`, and has the marker as a regular-file entry: `untar` gives an opaque
marker no meaning. -/
theorem c4_opaque_marker_is_a_plain_file (w : World) (L1 L2 : Archive)
    (hx : ∃ m c, shapeAt (untar w.cwd w L1).1.root (w.cwd ++ ["dir", "x"]) = some (.file m c))
    (hy : ∃ m c, shapeAt (untar w.cwd w L1).1.root (w.cwd ++ ["dir", "y"]) = some (.file m c))
    (h2 : (untar w.cwd (untar w.cwd w L1).1 L2).2 = false)
    (hmark : ∃ it ∈ L2.items, it.header.Name = "dir/.wh..wh..opq" ∧
      it.header.Typeflag = .TypeReg)
    (hz : ∃ it ∈ L2.items, it.header.Name = "dir/z" ∧ it.header.Typeflag = .TypeReg) :
    ∃ es, createTarball (untar w.cwd (untar w.cwd w L1).1 L2).1 = some es ∧
      (∃ e ∈ es, e.Name = "dir/z" ∧ e.Typeflag = .TypeReg) ∧
      (∃ e ∈ es, e.Name = "dir/x" ∧ e.Typeflag = .TypeReg) ∧
      (∃ e ∈ es, e.Name = "dir/y" ∧ e.Typeflag = .TypeReg) ∧
      (∃ e ∈ es, e.Name = "dir/.wh..wh..opq" ∧ e.Typeflag = .TypeReg) := by
  obtain ⟨mx, cx, hx⟩ := hx
  obtain ⟨my, cy, hy⟩ := hy
  obtain ⟨im, him, hmname, hmreg⟩ := hmark
  obtain ⟨iz, hiz, hzname, hzreg⟩ := hz
  have hsh := untar_shape w.cwd (untar w.cwd w L1).1 L2
  have hcwd : (untar w.cwd (untar w.cwd w L1).1 L2).1.cwd = w.cwd := by
    rw [untar_cwd, untar_cwd]
  rw [hsh.2] at h2
  obtain ⟨cx1, hx2⟩ := (shapeLoop_persist _ w.cwd _ L2.items _ L2.bad).2 mx cx hx
  obtain ⟨cy1, hy2⟩ := (shapeLoop_persist _ w.cwd _ L2.items _ L2.bad).2 my cy hy
  obtain ⟨mm, cm, hm2⟩ := shapeLoop_reg _ w.cwd L2.items _ L2.bad h2 im him hmreg
  obtain ⟨mz, cz, hz2⟩ := shapeLoop_reg _ w.cwd L2.items _ L2.bad h2 iz hiz hzreg
  rw [← hsh.1] at hx2 hy2 hm2 hz2
  rw [hmname, joinPath_clean _ _ (by decide),
    show nameComps "dir/.wh..wh..opq" = ["dir", ".wh..wh..opq"] from by decide] at hm2
  rw [hzname, joinPath_clean _ _ (by decide),
    show nameComps "dir/z" = ["dir", "z"] from by decide] at hz2
  obtain ⟨t, ht, hct, ex, hex, hxp, hxty, _⟩ :=
    archive_has_file (untar w.cwd (untar w.cwd w L1).1 L2).1 ["dir", "x"] mx cx1
      (by rw [hcwd]; exact hx2)
  obtain ⟨t1, ht1, _, ey, hey, hyp, hyty, _⟩ :=
    archive_has_file (untar w.cwd (untar w.cwd w L1).1 L2).1 ["dir", "y"] my cy1
      (by rw [hcwd]; exact hy2)
  obtain ⟨t2, ht2, _, em, hem, hmp, hmty, _⟩ :=
    archive_has_file (untar w.cwd (untar w.cwd w L1).1 L2).1 ["dir", ".wh..wh..opq"] mm cm
      (by rw [hcwd]; exact hm2)
  obtain ⟨t3, ht3, _, ez, hez, hzp, hzty, _⟩ :=
    archive_has_file (untar w.cwd (untar w.cwd w L1).1 L2).1 ["dir", "z"] mz cz
      (by rw [hcwd]; exact hz2)
  rw [ht] at ht1 ht2 ht3
  cases ht1
  cases ht2
  cases ht3
  exact ⟨walk [] t, hct, ⟨ez, hez, by rw [Entry.Name, hzp]; decide, hzty⟩,
    ⟨ex, hex, by rw [Entry.Name, hxp]; decide, hxty⟩,
    ⟨ey, hey, by rw [Entry.Name, hyp]; decide, hyty⟩,
    ⟨em, hem, by rw [Entry.Name, hmp]; decide, hmty⟩⟩

/-- Witness for C4: layer `dir`, `dir/x`, `dir/y` followed by the layer holding the opaque marker and `dir/z`. -/
theorem c4_opaque_marker_is_a_plain_file_witness :
    (∃ m c, shapeAt (untar worldE.cwd worldE layerDirXY).1.root (worldE.cwd ++ ["dir", "x"]) =
      some (.file m c)) ∧
    (∃ m c, shapeAt (untar worldE.cwd worldE layerDirXY).1.root (worldE.cwd ++ ["dir", "y"]) =
      some (.file m c)) ∧
    (untar worldE.cwd (untar worldE.cwd worldE layerDirXY).1 layerOpaqueZ).2 = false ∧
    ∃ es, createTarball (untar worldE.cwd (untar worldE.cwd worldE layerDirXY).1 layerOpaqueZ).1
        = some es ∧
      (∃ e ∈ es, e.Name = "dir/z" ∧ e.Typeflag = .TypeReg) ∧
      (∃ e ∈ es, e.Name = "dir/x" ∧ e.Typeflag = .TypeReg) ∧
      (∃ e ∈ es, e.Name = "dir/y" ∧ e.Typeflag = .TypeReg) ∧
      (∃ e ∈ es, e.Name = "dir/.wh..wh..opq" ∧ e.Typeflag = .TypeReg) :=
  ⟨⟨0o644, [1], by decide⟩, ⟨0o644, [2], by decide⟩, by decide,
    c4_opaque_marker_is_a_plain_file worldE layerDirXY layerOpaqueZ
      ⟨0o644, [1], by decide⟩ ⟨0o644, [2], by decide⟩ (by decide)
      ⟨regItem "dir/.wh..wh..opq" [], by decide, by decide, by decide⟩
      ⟨regItem "dir/z" [3], by decide, by decide, by decide⟩⟩

/-- C5 (amended): `untar` checks no path; what keeps a member inside is only where
`filepath.Join(dst, name)` lands.  A name without a `..` segment lands at or
beneath `dst` (absolute names included: `filepath.Join` absorbs the leading
separator), and so does a name whose `..` segments never climb above `dst`,
such as `a/../b`.  For every tree root `dst` that is an existing directory of
a tree of directories and files, and every layer archive all of whose members
land at or beneath `dst`, every object outside `dst` keeps its shape: none is
created, none changes type, permission bits or content. -/
theorem c5_members_beneath_dst_leave_outside_alone (dst : Path) (w : World) (r : Archive)
    (hdst : ∃ m, shapeAt w.root dst = some (.dir m))
    (hnames : ∀ it ∈ r.items, dst <+: joinPath dst it.header.Name) :
    (∀ name, ".." ∉ segments name → dst <+: joinPath dst name) ∧
    (∀ q, ¬ dst <+: q → shapeAt (untar dst w r).1.root q = shapeAt w.root q) := by
  refine ⟨fun name hn => ?_, fun q hq => ?_⟩
  · rw [joinPath_clean dst name hn]
    exact List.prefix_append _ _
  · rw [(untar_shape dst w r).1]
    refine shapeLoop_frame _ dst r.items _ r.bad hnames ?_ q hq
    intro p hp
    obtain ⟨m, hm⟩ := hdst
    exact shapeAt_prefix hp (by rw [hm]; simp)

/-- Witness for C5: the layer with the members `a`, `a/../b` and `/abs`, applied
in the sample extraction directory. -/
theorem c5_members_beneath_dst_leave_outside_alone_witness :
    (∃ m, shapeAt worldE.root worldE.cwd = some (.dir m)) ∧
    (∀ it ∈ layerDotDotInside.items, worldE.cwd <+: joinPath worldE.cwd it.header.Name) ∧
    (untar worldE.cwd worldE layerDotDotInside).2 = false ∧
    shapeAt (untar worldE.cwd worldE layerDotDotInside).1.root ["work", "extraction", "b"] =
      some (.file 0o644 [1]) ∧
    (∀ name, ".." ∉ segments name → worldE.cwd <+: joinPath worldE.cwd name) ∧
    (∀ q, ¬ worldE.cwd <+: q →
      shapeAt (untar worldE.cwd worldE layerDotDotInside).1.root q = shapeAt worldE.root q) :=
  ⟨⟨0o755, by decide⟩, by decide, by decide, by decide,
    c5_members_beneath_dst_leave_outside_alone worldE.cwd worldE layerDotDotInside
      ⟨0o755, by decide⟩ (by decide)⟩

/-! ### C8: what the archive depends on -/


theorem get?_wf : ∀ (p : Path) (t u : Node), t.wf = true → t.get? p = some u → u.wf = true
  | [], t, u, hwf, h => by simp [Node.get?] at h; subst h; exact hwf
  | n :: p, .file _ _ _, u, _, h => by simp [Node.get?] at h
  | n :: p, .dir m t cs, u, hwf, h => by
    cases hc : getChild n cs with
    | none => simp [Node.get?, hc] at h
    | some c =>
      simp only [Node.get?, hc] at h
      exact get?_wf p c u (wf_child hwf hc) h

theorem mem_names_iff_shapeAt (m t : Nat) (cs : List (String × Node)) (n : String) :
    n ∈ cs.map Prod.fst ↔ shapeAt (.dir m t cs) [n] ≠ none := by
  rw [shapeAt_dir_cons]
  constructor
  · intro h
    obtain ⟨c, hc⟩ := getChild_isSome_of_mem h
    simp [hc]
  · intro h
    cases hc : getChild n cs with
    | none => simp [hc] at h
    | some c => exact getChild_name_mem hc

/-- Two well-formed trees with the same shapes at all locations are walked to
the same entries, modification times apart. -/
theorem walk_untimed_of_shapes (t : Node) : ∀ (u : Node) (p : Path),
    t.wf = true → u.wf = true → (∀ q, shapeAt t q = shapeAt u q) →
    (walk p t).map Entry.untimed = (walk p u).map Entry.untimed := by
  induction t using Node.induct with
  | hf m tm c =>
    intro u p _ _ hs
    have h0 := hs []
    cases u with
    | dir _ _ _ => simp [Node.shape] at h0
    | file m1 t1 c1 =>
      simp [Node.shape] at h0
      simp [walk, entryOf, Entry.untimed, h0]
  | hd m tm cs ih =>
    intro u p hwf hwfu hs
    have h0 := hs []
    cases u with
    | file _ _ _ => simp [Node.shape] at h0
    | dir m1 t1 ds =>
      simp [Node.shape] at h0
      subst h0
      obtain ⟨hnd, hch⟩ := (wf_dir_iff _ _ _).1 hwf
      obtain ⟨hndu, hchu⟩ := (wf_dir_iff _ _ _).1 hwfu
      have hperm : (cs.map Prod.fst).Perm (ds.map Prod.fst) := by
        rw [List.perm_ext_iff_of_nodup hnd hndu]
        intro n
        rw [mem_names_iff_shapeAt m tm, mem_names_iff_shapeAt m t1, hs [n]]
      rw [walk_dir, walk_dir, readDirNames_perm hperm]
      simp only [List.map_cons, List.map_flatMap]
      congr 1
      refine List.flatMap_congr ?_
      intro n _
      have hsn : ∀ q, shapeAt (.dir m tm cs) (n :: q) = shapeAt (.dir m t1 ds) (n :: q) :=
        fun q => hs (n :: q)
      simp only [shapeAt_dir_cons] at hsn
      cases hc : getChild n cs with
      | none =>
        cases hd : getChild n ds with
        | none => rfl
        | some d =>
          have := hsn []
          simp [hc, hd] at this
      | some c =>
        cases hd : getChild n ds with
        | none =>
          have := hsn []
          simp [hc, hd] at this
        | some d =>
          simp only [hc, hd] at hsn ⊢
          exact ih n c (getChild_mem hc) d _ (hch n c (getChild_mem hc))
            (hchu n d (getChild_mem hd)) hsn

theorem readFile_shape (w : World) (p : Path) :
    readFile w p = match shapeAt w.root p with
      | some (.file _ c) => some c
      | _ => none := by
  unfold readFile shapeAt
  cases w.root.get? p with
  | none => rfl
  | some nd => cases nd <;> rfl

theorem openArchive_shape (env : Codec) (w : World) (p : Path) :
    openArchive env w p = match shapeAt w.root p with
      | some (.file _ c) => some (env.tarDecode c)
      | some (.dir _) => some ⟨[], true⟩
      | none => none := by
  unfold openArchive shapeAt
  cases w.root.get? p with
  | none => rfl
  | some nd => cases nd <;> rfl

theorem chdir_shape (w : World) (dir : String) :
    chdir w dir = match shapeAt w.root (resolve w.cwd dir) with
      | some (.dir _) => some { w with cwd := resolve w.cwd dir }
      | _ => none := by
  unfold chdir shapeAt
  cases w.root.get? (resolve w.cwd dir) with
  | none => rfl
  | some nd => cases nd <;> rfl

theorem openArchive_same (env : Codec) {w v : World} (h : SameShapes w v) (p : Path) :
    openArchive env w p = openArchive env v p := by
  rw [openArchive_shape, openArchive_shape, h.2.2]

theorem openLayer_same (env : Codec) {w v : World} (h : SameShapes w v) (l : String) :
    openLayer env w l = openLayer env v l := by
  simp only [openLayer, openArchive_same env h, h.1]

theorem untar_same (dst : Path) (r : Archive) {w v : World} (h : SameShapes w v) :
    (untar dst w r).2 = (untar dst v r).2 ∧ SameShapes (untar dst w r).1 (untar dst v r).1 := by
  have hw := untar_shape dst w r
  have hv := untar_shape dst v r
  have hs : shapeAt w.root = shapeAt v.root := funext h.2.2
  rw [hs, h.2.1] at hw
  refine ⟨hw.2.trans hv.2.symm, ?_, ?_, fun q => ?_⟩
  · rw [untar_cwd, untar_cwd]; exact h.1
  · rw [untar_umask, untar_umask]; exact h.2.1
  · rw [hw.1, hv.1]

theorem extractLayers_same (env : Codec) : ∀ (ls : List JSON) (w v : World), SameShapes w v →
    (extractLayers env w ls).failed = (extractLayers env v ls).failed ∧
    SameShapes (extractLayers env w ls).world (extractLayers env v ls).world
  | [], w, v, h => ⟨rfl, h⟩
  | .str l :: ls, w, v, h => by
    simp only [extractLayers]
    rw [openLayer_same env h, h.1]
    cases openLayer env v l with
    | none => exact ⟨rfl, h⟩
    | some r =>
      simp only []
      have hu := untar_same v.cwd r h
      rcases hw : untar v.cwd w r with ⟨w1, e⟩
      rcases hv : untar v.cwd v r with ⟨v1, e1⟩
      rw [hw, hv] at hu
      simp only at hu
      obtain ⟨he, hsame⟩ := hu
      subst he
      cases e with
      | true => exact ⟨rfl, hsame⟩
      | false => exact extractLayers_same env ls w1 v1 hsame
  | .null :: ls, w, v, h => ⟨rfl, h⟩
  | .bool _ :: ls, w, v, h => ⟨rfl, h⟩
  | .num _ :: ls, w, v, h => ⟨rfl, h⟩
  | .arr _ :: ls, w, v, h => ⟨rfl, h⟩
  | .obj _ :: ls, w, v, h => ⟨rfl, h⟩

theorem extractLayers_wf (env : Codec) : ∀ (ls : List JSON) (w : World), w.root.wf = true →
    (extractLayers env w ls).world.root.wf = true
  | [], w, h => h
  | .str l :: ls, w, h => by
    simp only [extractLayers]
    cases openLayer env w l with
    | none => exact h
    | some r =>
      simp only []
      have hu := untar_wf w.cwd w r h
      rcases hw : untar w.cwd w r with ⟨w1, e⟩
      rw [hw] at hu
      cases e with
      | true => exact hu
      | false => exact extractLayers_wf env ls w1 hu
  | .null :: ls, w, h => h
  | .bool _ :: ls, w, h => h
  | .num _ :: ls, w, h => h
  | .arr _ :: ls, w, h => h
  | .obj _ :: ls, w, h => h

theorem manifestLayers_same (env : Codec) {w v : World} (h : SameShapes w v) :
    manifestLayers env w = manifestLayers env v := by
  have hs : shapeAt w.root = shapeAt v.root := funext h.2.2
  simp only [manifestLayers, readFile_shape, h.1, hs]

theorem extractFromManifest_same (env : Codec) {w v : World} (h : SameShapes w v) :
    (extractFromManifest env w).failed = (extractFromManifest env v).failed ∧
    SameShapes (extractFromManifest env w).world (extractFromManifest env v).world := by
  have hs : shapeAt w.root = shapeAt v.root := funext h.2.2
  simp only [extractFromManifest, manifestLayers_same env h, chdir_shape, h.1, hs]
  cases manifestLayers env v with
  | none => exact ⟨rfl, h⟩
  | some layers =>
    simp only []
    cases hsd : shapeAt v.root (resolve v.cwd ExtractionDir) with
    | none => exact ⟨rfl, h⟩
    | some s =>
      cases s with
      | file _ _ => exact ⟨rfl, h⟩
      | dir m =>
        simp only []
        have h1 : SameShapes { w with cwd := resolve v.cwd ExtractionDir }
            { v with cwd := resolve v.cwd ExtractionDir } := ⟨rfl, h.2.1, h.2.2⟩
        cases layers with
        | none => exact ⟨rfl, h1⟩
        | some j =>
          cases j with
          | arr ls => exact extractLayers_same env ls _ _ h1
          | null => exact ⟨rfl, h1⟩
          | bool _ => exact ⟨rfl, h1⟩
          | num _ => exact ⟨rfl, h1⟩
          | str _ => exact ⟨rfl, h1⟩
          | obj _ => exact ⟨rfl, h1⟩

theorem extractFromManifest_wf (env : Codec) (w : World) (h : w.root.wf = true) :
    (extractFromManifest env w).world.root.wf = true := by
  unfold extractFromManifest
  cases manifestLayers env w with
  | none => exact h
  | some layers =>
    simp only []
    cases hc : chdir w ExtractionDir with
    | none => exact h
    | some w1 =>
      have h1 : w1.root.wf = true := by rw [chdir_root hc]; exact h
      cases layers with
      | none => exact h1
      | some j =>
        cases j with
        | arr ls => exact extractLayers_wf env ls w1 h1
        | null => exact h1
        | bool _ => exact h1
        | num _ => exact h1
        | str _ => exact h1
        | obj _ => exact h1

theorem sameKids_iff (ds : List (String × Node)) : ∀ (cs : List (String × Node)),
    sameKids cs ds = true ↔
      ∀ n c, (n, c) ∈ cs → ∃ d, getChild n ds = some d ∧ sameShapeTree c d = true
  | [] => by simp [sameKids]
  | (k, x) :: rest => by
    rw [sameKids, Bool.and_eq_true, sameKids_iff ds rest]
    constructor
    · rintro ⟨h1, h2⟩ n c hm
      rcases List.mem_cons.1 hm with h | h
      · cases h
        cases hg : getChild k ds with
        | none => rw [hg] at h1; cases h1
        | some d => rw [hg] at h1; exact ⟨d, rfl, h1⟩
      · exact h2 n c h
    · intro h
      refine ⟨?_, fun n c hm => h n c (List.mem_cons_of_mem _ hm)⟩
      obtain ⟨d, hd, hs⟩ := h k x (List.mem_cons_self _ _)
      rw [hd]; exact hs

/-- Trees that pass `sameShapeTree` have the same shape at every location. -/
theorem sameShapeTree_sound (t u : Node) (h : sameShapeTree t u = true) :
    ∀ q, shapeAt t q = shapeAt u q := by
  revert u
  refine Node.induct (P := fun t => ∀ u, sameShapeTree t u = true →
    ∀ q, shapeAt t q = shapeAt u q) ?_ ?_ t
  · intro m t c u h q
    cases u with
    | dir _ _ _ => simp [sameShapeTree] at h
    | file m2 t2 c2 =>
      simp only [sameShapeTree, Bool.and_eq_true, decide_eq_true_eq] at h
      obtain ⟨rfl, rfl⟩ := h
      cases q <;> simp [shapeAt, Node.get?, Node.shape]
  · intro m t cs ih u h q
    cases u with
    | file _ _ _ => simp [sameShapeTree] at h
    | dir m2 t2 ds =>
      simp only [sameShapeTree, Bool.and_eq_true, decide_eq_true_eq, List.all_eq_true] at h
      obtain ⟨⟨rfl, hk⟩, hall⟩ := h
      cases q with
      | nil => simp [shapeAt, Node.get?, Node.shape]
      | cons n p =>
        rw [shapeAt_dir_cons, shapeAt_dir_cons]
        cases hc : getChild n cs with
        | some c =>
          obtain ⟨d, hd, hs⟩ := (sameKids_iff ds cs).1 hk n c (getChild_mem hc)
          rw [hd]
          exact ih n c (getChild_mem hc) d hs p
        | none =>
          cases hd : getChild n ds with
          | none => rfl
          | some d =>
            have := hall (n, d) (getChild_mem hd)
            rw [hc] at this
            cases this

theorem createTarball_same {w v : World} (h : SameShapes w v)
    (hw : w.root.wf = true) (hv : v.root.wf = true) :
    (createTarball w).map (List.map Entry.untimed) =
      (createTarball v).map (List.map Entry.untimed) := by
  unfold createTarball
  have hc := h.2.2 w.cwd
  cases htw : w.root.get? w.cwd with
  | none =>
    have : v.root.get? v.cwd = none := by
      rw [get?_isSome_iff_shapeAt, ← h.1, ← hc, ← get?_isSome_iff_shapeAt]; exact htw
    simp [this]
  | some t =>
    cases htv : v.root.get? v.cwd with
    | none =>
      have : shapeAt w.root w.cwd = none := by
        rw [hc, h.1, ← get?_isSome_iff_shapeAt]; exact htv
      rw [← get?_isSome_iff_shapeAt, htw] at this
      cases this
    | some u =>
      simp only [Option.map_some']
      congr 1
      refine walk_untimed_of_shapes t u [] (get?_wf _ _ _ hw htw) (get?_wf _ _ _ hv htv) ?_
      intro q
      rw [← shapeAt_append htw, ← shapeAt_append htv, h.1]
      exact h.2.2 _

/-- C8 (as stated, refuted): the same inputs materialised when the clock reads 5 and when
it reads 6 give different archives (the modification times differ), and the
same inputs with a file left in the extraction directory by an earlier run
give a different archive (the stale file is in it). -/
theorem c8_archive_depends_on_clock_and_leftovers :
    (materialize sampleCodec (sampleWorld [100] (fun _ => 5))).map (List.map Entry.ModTime)
      = some [5, 5, 5, 5] ∧
    (materialize sampleCodec (sampleWorld [100] (fun _ => 6))).map (List.map Entry.ModTime)
      = some [6, 6, 6, 6] ∧
    materialize sampleCodec (sampleWorld [100] (fun _ => 5)) ≠
      materialize sampleCodec (sampleWorld [100] (fun _ => 6)) ∧
    (materialize sampleCodec (sampleWorld [100] (fun _ => 5))).map (List.map Entry.Name)
      = some [".", "a", "a/.wh.b", "a/b"] ∧
    (materialize sampleCodec ⟨sampleRootLeftover [100], ["work"], 0o022, fun _ => 5, 0⟩).map
      (List.map Entry.Name) = some [".", "a", "a/.wh.b", "a/b", "stale"] := by
  decide

/-- C8 (amended): two runs of the pipeline over the same inputs that start from
well-formed trees with the same files and directories, modes and contents
(the extraction directory included), in the same working directory and under
the same umask, end the same way and write archives with the same entries in
the same order, equal in every field except the modification time, whatever
the timestamps and the enumeration order of the two trees and whatever the
clocks of the two runs. -/
theorem c8_same_archive_up_to_mtime (env : Codec) (w v : World)
    (hsame : SameShapes v w) (hwfv : v.root.wf = true) (hwfw : w.root.wf = true) :
    (materialize env v).map (List.map Entry.untimed) =
      (materialize env w).map (List.map Entry.untimed) := by
  have h := extractFromManifest_same env hsame
  have h1 := extractFromManifest_wf env v hwfv
  have h2 := extractFromManifest_wf env w hwfw
  unfold materialize
  cases hv : extractFromManifest env v with
  | aborted v1 =>
    cases hw : extractFromManifest env w with
    | aborted w1 => rfl
    | done w1 => rw [hv, hw] at h; simp [Outcome.failed] at h
  | done v1 =>
    cases hw : extractFromManifest env w with
    | aborted w1 => rw [hv, hw] at h; simp [Outcome.failed] at h
    | done w1 =>
      rw [hv, hw] at h
      rw [hv] at h1
      rw [hw] at h2
      exact createTarball_same h.2 h1 h2

/-- Witness for C8: the sample work directory materialised under a clock stuck
at 5, and the same files unpacked at other times and enumerated in another
order, materialised under a clock that runs from 6: the archives agree up to
the modification times, and both runs do write one. -/
theorem c8_same_archive_up_to_mtime_witness :
    SameShapes ⟨sampleRootLater [100], ["work"], 0o022, fun k => 6 + k, 0⟩
      (sampleWorld [100] (fun _ => 5)) ∧
    (sampleRootLater [100]).wf = true ∧
    (sampleWorld [100] (fun _ => 5)).root.wf = true ∧
    sampleRootLater [100] ≠ (sampleWorld [100] (fun _ => 5)).root ∧
    (materialize sampleCodec (sampleWorld [100] (fun _ => 5))).isSome = true ∧
    (materialize sampleCodec ⟨sampleRootLater [100], ["work"], 0o022, fun k => 6 + k, 0⟩).map
        (List.map Entry.untimed) =
      (materialize sampleCodec (sampleWorld [100] (fun _ => 5))).map (List.map Entry.untimed) :=
  ⟨⟨rfl, rfl, sameShapeTree_sound _ _ (by decide)⟩, by decide, by decide,
    by simp [sampleRootLater, sampleWorld, sampleRoot], by decide,
    c8_same_archive_up_to_mtime sampleCodec (sampleWorld [100] (fun _ => 5))
      ⟨sampleRootLater [100], ["work"], 0o022, fun k => 6 + k, 0⟩
      ⟨rfl, rfl, sameShapeTree_sound _ _ (by decide)⟩ (by decide) (by decide)⟩

/-! ### C6: a single plain layer -/


/-- On the way to an existing location there are only directories. -/
theorem shapeAt_proper_prefix_dir : ∀ (q r : Path) (t : Node), r ≠ [] →
    shapeAt t (q ++ r) ≠ none → ∃ m, shapeAt t q = some (.dir m)
  | [], r, .file _ _ _, hr, h => by
    cases r with
    | nil => exact absurd rfl hr
    | cons n r => simp at h
  | [], r, .dir m _ _, _, _ => ⟨m, by simp [Node.shape]⟩
  | n :: q, r, .file _ _ _, _, h => by simp at h
  | n :: q, r, .dir m t cs, hr, h => by
    cases hc : getChild n cs with
    | none => simp [shapeAt_dir_cons, hc] at h
    | some c =>
      simp only [List.cons_append, shapeAt_dir_cons, hc] at h ⊢
      exact shapeAt_proper_prefix_dir q r c hr h

/-- The set-group-ID bit that a directory made at a missing `p` inherits, all
the way to `p` being there: the bit of the parent of `p`. -/
theorem inheritFrom_fresh (σ : Path → Option Shape) : ∀ (p base : Path), p ≠ [] →
    σ (base ++ p) = none →
    (∀ q, q <+: p → q ≠ p → σ (base ++ q) ≠ none) →
    inheritFrom σ base p = sgidBit (σ (base ++ p.dropLast))
  | [], _, hne, _, _ => absurd rfl hne
  | [n], base, _, hnone, _ => by
    simp [inheritFrom, hnone]
  | n :: n2 :: p, base, _, hnone, hpre => by
    have h1 : σ (base ++ [n]) ≠ none :=
      hpre [n] (by simp [List.cons_prefix_cons]) (by simp)
    have ih := inheritFrom_fresh σ (n2 :: p) (base ++ [n]) (by simp)
      (by simpa [List.append_assoc] using hnone)
      (fun q hq hqne => by
        have := hpre (n :: q) (by simpa [List.cons_prefix_cons] using hq)
          (by simpa using hqne)
        simpa [List.append_assoc] using this)
    cases hs : σ (base ++ [n]) with
    | none => exact absurd hs h1
    | some s =>
      show (match σ (base ++ [n]) with
        | some _ => inheritFrom σ (base ++ [n]) (n2 :: p)
        | none => sgidBit (σ base)) = _
      rw [hs]
      simp only []
      rw [ih]
      simp [List.dropLast, List.append_assoc]

theorem creationMode_dir_sgid (um m0 : Nat) :
    (creationMode um 0o755 ||| (m0 &&& 0o2000)) &&& 0o2000 = m0 &&& 0o2000 := by
  have h0 : syscallMode 0o755 = 493 := by decide
  rw [creationMode, h0]
  rw [Nat.and_comm, Nat.and_or_distrib_left, Nat.and_comm 0o2000 (m0 &&& 0o2000),
    Nat.and_assoc m0, Nat.and_self, ← Nat.and_assoc]
  have : (0o2000 : Nat) &&& 493 = 0 := by decide
  rw [this, Nat.zero_and, Nat.zero_or]

/-- A plain member applied where nothing is yet, all the way to it being
directories and its path string accepted: its shape appears at its target,
nothing else changes, no error. -/
theorem shapeStep_fresh (umask : Nat) (target : Path) (ok : Nat) (it : TarItem)
    (σ : Path → Option Shape) (mp : Nat)
    (hfit : target.length ≤ ok)
    (hne : target ≠ []) (hnone : σ target = none)
    (hpre : ∀ q, q <+: target → q ≠ target → ∃ m, σ q = some (.dir m))
    (hpar : σ target.dropLast = some (.dir mp))
    (hty : it.header.Typeflag = .TypeDir ∨ it.header.Typeflag = .TypeReg)
    (hshort : it.short = false) :
    shapeStep umask target ok it σ =
      (fun q => if q = target then some (itemShape umask mp it) else σ q, false) := by
  have htake : target.take ok = target := List.take_of_length_le hfit
  rcases hty with hty | hty
  · have hany : target.inits.any (fun q => (σ q).any Shape.isFile) = false := by
      rw [List.any_eq_false]
      intro q hq
      by_cases hqt : q = target
      · simp [hqt, hnone]
      · obtain ⟨m, hm⟩ := hpre q ((List.mem_inits _ _).1 hq) hqt
        simp [hm, Shape.isFile]
    have hbit : inheritBit σ target = mp &&& 0o2000 := by
      have := inheritFrom_fresh σ target [] hne (by simpa using hnone)
        (fun q hq hqne => by
          obtain ⟨m, hm⟩ := hpre q hq hqne
          simp [hm])
      rw [inheritBit, this]
      simp [hpar, sgidBit]
    have hlt : ¬ ok < target.length := Nat.not_lt.2 hfit
    simp only [shapeStep, hty, hnone, htake, hany, hbit, Option.isSome_none,
      Bool.false_eq_true, and_false, if_false, itemShape, hlt, decide_False]
    congr 1
    funext q
    by_cases hqt : q = target
    · subst hqt; simp [hnone]
    · cases hs : σ q with
      | some s => simp [hqt]
      | none =>
        have : ¬ q <+: target := fun hp => by
          obtain ⟨m, hm⟩ := hpre q hp hqt
          rw [hs] at hm; cases hm
        simp [hqt, this]
  · simp [shapeStep, hty, hfit, hnone, hne, hpar, Shape.isDir, itemShape, hshort]

theorem plainItem_iff (dst : Path) (seen : List TarItem) (it : TarItem) :
    plainItem dst seen it = true ↔
      ".." ∉ segments it.header.Name ∧ itemPath it ≠ [] ∧ it.short = false ∧
      (it.header.Typeflag = .TypeDir ∨ it.header.Typeflag = .TypeReg) ∧
      fitCount (PATH_MAX - 1) (dst ++ itemPath it) = (dst ++ itemPath it).length ∧
      (∀ s ∈ seen, itemPath s ≠ itemPath it) ∧
      ((itemPath it).dropLast = [] ∨
        ∃ s ∈ seen, s.header.Typeflag = .TypeDir ∧ itemPath s = (itemPath it).dropLast) := by
  simp [plainItem, and_assoc]

theorem plain_paths (dst : Path) : ∀ (rest seen : List TarItem),
    plainLayerFrom dst seen rest = true →
    (∀ it ∈ rest, itemPath it ≠ [] ∧ ∀ s ∈ seen, itemPath s ≠ itemPath it) ∧
    (rest.map itemPath).Nodup
  | [], seen, _ => by simp
  | it :: rest, seen, h => by
    simp only [plainLayerFrom, Bool.and_eq_true] at h
    obtain ⟨hit, hrest⟩ := h
    obtain ⟨_, hne, _, _, _, hdist, _⟩ := (plainItem_iff dst seen it).1 hit
    obtain ⟨ih1, ih2⟩ := plain_paths dst rest (seen ++ [it]) hrest
    refine ⟨?_, ?_⟩
    · intro x hx
      rcases List.mem_cons.1 hx with rfl | hx
      · exact ⟨hne, hdist⟩
      · exact ⟨(ih1 x hx).1, fun s hs => (ih1 x hx).2 s (List.mem_append_left _ hs)⟩
    · rw [List.map_cons, List.nodup_cons]
      refine ⟨?_, ih2⟩
      intro hmem
      obtain ⟨x, hx, hxp⟩ := List.mem_map.1 hmem
      exact (ih1 x hx).2 it (by simp) hxp.symm

theorem untarLoop_plain (dst : Path) (m0 um : Nat) :
    ∀ (rest seen : List TarItem) (w : World), w.umask = um →
    plainLayerFrom dst seen rest = true →
    shapeAt w.root dst = some (.dir m0) →
    (∀ q s, q ≠ [] → (shapeAt w.root (dst ++ q) = some s ↔
      ∃ it ∈ seen, itemPath it = q ∧ itemShape um m0 it = s)) →
    (untarLoop dst w rest false).2 = false ∧
    shapeAt (untarLoop dst w rest false).1.root dst = some (.dir m0) ∧
    (∀ q s, q ≠ [] → (shapeAt (untarLoop dst w rest false).1.root (dst ++ q) = some s ↔
      ∃ it ∈ seen ++ rest, itemPath it = q ∧ itemShape um m0 it = s))
  | [], seen, w, _, _, hd, hinv => by
    simp only [untarLoop, List.append_nil]
    exact ⟨trivial, hd, hinv⟩
  | it :: rest, seen, w, hum, h, hd, hinv => by
    simp only [plainLayerFrom, Bool.and_eq_true] at h
    obtain ⟨hit, hrest⟩ := h
    obtain ⟨hdd, hne, hshort, hty, hfit, hdist, hpar⟩ := (plainItem_iff dst seen it).1 hit
    have htarget : joinPath dst it.header.Name = dst ++ itemPath it := joinPath_clean dst _ hdd
    have hnone : shapeAt w.root (dst ++ itemPath it) = none := by
      cases hs : shapeAt w.root (dst ++ itemPath it) with
      | none => rfl
      | some s =>
        obtain ⟨x, hx, hxp, _⟩ := (hinv _ s hne).1 hs
        exact absurd hxp (hdist x hx)
    have hparent : ∃ m, shapeAt w.root (dst ++ (itemPath it).dropLast) = some (.dir m) ∧
        m &&& 0o2000 = m0 &&& 0o2000 := by
      by_cases hp0 : (itemPath it).dropLast = []
      · rw [hp0, List.append_nil]; exact ⟨m0, hd, rfl⟩
      · rcases hpar with hp | ⟨x, hx, hxt, hxp⟩
        · exact absurd hp hp0
        · have := (hinv _ (itemShape um m0 x) hp0).2 ⟨x, hx, hxp, rfl⟩
          exact ⟨creationMode um 0o755 ||| (m0 &&& 0o2000),
            by simpa [itemShape, hxt] using this, creationMode_dir_sgid um m0⟩
    obtain ⟨mp, hmp, hbit⟩ := hparent
    have hsplit : dst ++ itemPath it =
        (dst ++ (itemPath it).dropLast) ++ [(itemPath it).getLast hne] := by
      rw [List.append_assoc, List.dropLast_append_getLast]
    have hdl : (dst ++ itemPath it).dropLast = dst ++ (itemPath it).dropLast := by
      rw [hsplit, List.dropLast_concat]
    have hpre : ∀ q, q <+: dst ++ itemPath it → q ≠ dst ++ itemPath it →
        ∃ m, shapeAt w.root q = some (.dir m) := by
      intro q hq hqne
      rw [hsplit] at hq hqne
      rcases List.prefix_concat_iff.1 hq with h | h
      · exact absurd h hqne
      · obtain ⟨r, hr⟩ := h
        by_cases hr0 : r = []
        · subst hr0
          rw [List.append_nil] at hr
          subst hr
          exact ⟨mp, hmp⟩
        · exact shapeAt_proper_prefix_dir q r w.root hr0 (by rw [hr, hmp]; simp)
    have hshape : itemShape w.umask mp it = itemShape um m0 it := by
      simp [itemShape, hbit, hum]
    have hstep := applyItem_shape dst w it
    have hum1 := (applyItem_cwd dst w it).2
    rw [htarget, shapeStep_fresh _ _ _ it _ mp (le_of_eq hfit.symm) (by simp [hne]) hnone hpre
      (by rw [hdl]; exact hmp) hty hshort, hshape] at hstep
    simp only [untarLoop]
    rcases ha : applyItem dst w it with ⟨w1, e⟩
    rw [ha] at hstep hum1
    simp only at hstep hum1
    obtain ⟨hs1, hs2⟩ := hstep
    subst hs2
    simp only []
    have ih := untarLoop_plain dst m0 um rest (seen ++ [it]) w1 (hum1.trans hum) hrest
      (by rw [hs1]; simpa [hne] using hd)
      (by
        intro q s hq
        rw [hs1]
        by_cases hqp : q = itemPath it
        · subst hqp
          simp only [if_true, Option.some.injEq, List.mem_append, List.mem_singleton]
          constructor
          · intro h; exact ⟨it, Or.inr rfl, rfl, h⟩
          · rintro ⟨x, hx | hx, hxp, hxs⟩
            · exact absurd hxp (hdist x hx)
            · subst hx; exact hxs
        · have hne2 : dst ++ q ≠ dst ++ itemPath it := fun e => hqp (List.append_cancel_left e)
          simp only [hne2, if_false, List.mem_append, List.mem_singleton]
          rw [hinv q s hq]
          constructor
          · rintro ⟨x, hx, hxp, hxs⟩; exact ⟨x, Or.inl hx, hxp, hxs⟩
          · rintro ⟨x, hx | hx, hxp, hxs⟩
            · exact ⟨x, hx, hxp, hxs⟩
            · subst hx; exact absurd hxp.symm hqp)
    simpa [List.append_assoc] using ih

set_option maxRecDepth 100000 in
/-- A regular-file member with a name of 256 bytes makes `untar` return an error
(`ENAMETOOLONG`); with 255 bytes it is applied. -/
theorem untar_name_length_limit :
    (untar worldE.cwd worldE
      ⟨[regItem (String.mk (List.replicate 256 'a')) [1]], false⟩).2 = true ∧
    (untar worldE.cwd worldE
      ⟨[regItem (String.mk (List.replicate 255 'a')) [1]], false⟩).2 = false := by
  decide

/-- C6 (as stated, refuted): a layer with directory `d` and the symbolic link `d/l` is
applied without error and the archive has `.` and `d` only (the link is
dropped, the root is added); a layer with the file `p/q` and no entry for `p`
makes `untar` return an error and leaves nothing. -/
theorem c6_symlink_dropped_orphan_fails :
    (untar worldE.cwd worldE layerWithSymlink).2 = false ∧
    summary (createTarball (untar worldE.cwd worldE layerWithSymlink).1) =
      some [(".", 0, []), ("d", 0, [])] ∧
    (untar worldE.cwd worldE layerOrphan).2 = true ∧
    summary (createTarball (untar worldE.cwd worldE layerOrphan).1) = some [(".", 0, [])] := by
  decide

/-- C6 (amended): for every layer archive of directory and regular-file members, read to
its end, whose names have no `..` segment and are distinct locations below
the root, each member after the member for its parent directory, each target
path one the system calls accept (no name longer than `NAME_MAX` bytes, no
NUL, the whole path shorter than `PATH_MAX`), applying it with `untar` in a
privileged process to an empty tree root returns no error, and
`createTarball` writes the entry `.` of the root and exactly one entry per
member, with the member's location, type and content and with these mode
bits: for a file the permission, set-user-ID, set-group-ID and sticky bits
of `os.FileMode(header.Mode)` cut by the umask, for a directory 0755 cut by
the umask (whatever the header says) with the set-group-ID bit of the root.
Nothing else is added, nothing is dropped. -/
theorem c6_plain_layer_identity (w : World) (L : Archive) (m0 : Nat)
    (hwf : w.root.wf = true)
    (hdst : shapeAt w.root w.cwd = some (.dir m0))
    (hempty : ∀ q, q ≠ [] → shapeAt w.root (w.cwd ++ q) = none)
    (hplain : plainLayer w.cwd L = true) :
    (untar w.cwd w L).2 = false ∧
    ∃ es, createTarball (untar w.cwd w L).1 = some es ∧
      (es.map (fun e => (e.path, entryShape e))).Perm
        (([], Shape.dir m0) ::
          L.items.map (fun it => (itemPath it, itemShape w.umask m0 it))) := by
  simp only [plainLayer, Bool.and_eq_true, Bool.not_eq_true'] at hplain
  obtain ⟨hbad, hitems⟩ := hplain
  have hloop := untarLoop_plain w.cwd m0 w.umask L.items [] w rfl hitems hdst
    (fun q s hq => by simp [hempty q hq])
  have hu : untar w.cwd w L = untarLoop w.cwd w L.items false := by
    simp [untar, hbad]
  rw [← hu] at hloop
  obtain ⟨hok, hroot, hinv⟩ := hloop
  simp only [List.nil_append] at hinv
  refine ⟨hok, ?_⟩
  have hcwd : (untar w.cwd w L).1.cwd = w.cwd := untar_cwd _ _ _
  have hwf1 := untar_wf w.cwd w L hwf
  cases ht : (untar w.cwd w L).1.root.get? (untar w.cwd w L).1.cwd with
  | none =>
    rw [hcwd, get?_isSome_iff_shapeAt, hroot] at ht
    cases ht
  | some t =>
    obtain ⟨hct, hsh⟩ := createTarball_shapes _ t ht
    refine ⟨walk [] t, hct, ?_⟩
    have hsorted := walk_sorted t [] (get?_wf _ _ _ hwf1 ht)
    obtain ⟨hp1, hp2⟩ := plain_paths w.cwd L.items [] hitems
    rw [List.perm_ext_iff_of_nodup]
    · rintro ⟨q, s⟩
      simp only [List.mem_map, Prod.mk.injEq, List.mem_cons]
      rw [show (∃ e ∈ walk [] t, e.path = q ∧ entryShape e = s) ↔
        shapeAt (untar w.cwd w L).1.root ((untar w.cwd w L).1.cwd ++ q) = some s from
          (hsh q s).symm, hcwd]
      by_cases hq : q = []
      · subst hq
        rw [List.append_nil, hroot]
        constructor
        · intro h; exact Or.inl ⟨rfl, (Option.some.inj h).symm⟩
        · rintro (⟨_, h⟩ | ⟨it, hit, hitp, _⟩)
          · rw [h]
          · exact absurd hitp (hp1 it hit).1
      · rw [hinv q s hq]
        constructor
        · rintro ⟨it, hit, h1, h2⟩; exact Or.inr ⟨it, hit, h1, h2⟩
        · rintro (⟨h, _⟩ | ⟨it, hit, h1, h2⟩)
          · exact absurd h hq
          · exact ⟨it, hit, h1, h2⟩
    · rw [List.Nodup, List.pairwise_map]
      refine hsorted.imp ?_
      intro a b hab heq
      have : a.path = b.path := congrArg Prod.fst heq
      rw [this, pathLt_strictTotal.irrefl] at hab
      exact Bool.false_ne_true hab
    · rw [List.nodup_cons]
      constructor
      · intro hmem
        obtain ⟨it, hit, heq⟩ := List.mem_map.1 hmem
        exact (hp1 it hit).1 (congrArg Prod.fst heq)
      · have : (L.items.map (fun it => (itemPath it, itemShape w.umask m0 it))).map Prod.fst =
            L.items.map itemPath := by simp
        exact List.Nodup.of_map Prod.fst (by rw [this]; exact hp2)

/-- Witness for C6: the layer `dir`, `dir/x` with the set-user-ID bit, `dir/y`
with the sticky bit, applied to the empty sample extraction directory. -/
theorem c6_plain_layer_identity_witness :
    worldE.root.wf = true ∧
    shapeAt worldE.root worldE.cwd = some (.dir 0o755) ∧
    (∀ q, q ≠ [] → shapeAt worldE.root (worldE.cwd ++ q) = none) ∧
    plainLayer worldE.cwd layerModes = true ∧
    layerModes.items.map (fun it => (itemPath it, itemShape worldE.umask 0o755 it)) =
      [(["dir"], .dir 0o755), (["dir", "x"], .file 0o4644 [1]),
        (["dir", "y"], .file 0o1644 [2])] ∧
    (untar worldE.cwd worldE layerModes).2 = false ∧
    ∃ es, createTarball (untar worldE.cwd worldE layerModes).1 = some es ∧
      (es.map (fun e => (e.path, entryShape e))).Perm
        (([], Shape.dir 0o755) ::
          layerModes.items.map (fun it => (itemPath it, itemShape worldE.umask 0o755 it))) :=
  have hempty : ∀ q, q ≠ [] → shapeAt worldE.root (worldE.cwd ++ q) = none := by
    intro q hq
    cases q with
    | nil => exact absurd rfl hq
    | cons n q => rfl
  ⟨by decide, by decide, hempty, by decide, by decide,
    c6_plain_layer_identity worldE layerModes 0o755 (by decide) (by decide) hempty (by decide)⟩

end AppImageConverter
